import Mathlib

/-
Verification development for the minesweeper6d game engine
(src/bwi.rs and src/minesweeper_model.rs).

The Rust code is shallowly embedded:
* `BWI` (the bounded wrapping iterator) is embedded by `bwiList`, the full
  emission sequence of `BWI::new(from, to, lowest, highest, wrap)` followed by
  draining `next()` until it returns `None`.
* The 6-dimensional board is embedded as a total function `Coord → CellState`;
  the nested `Vec`s of the source are only a storage layout for the same map.
* Machine integers: `u32`/`usize` payloads become `Nat`, the `i32` delta
  becomes `Int`, and the `u64` counters become `Nat` with explicit wrapping
  modulo 2^64 (`inc64`/`dec64`), matching two's-complement `u64` arithmetic.
* The `while let Some(..) = deque.pop_front()` flood fill of `probe_at` is
  embedded with an explicit fuel parameter; the fuel `probeFuel` is proved
  sufficient for in-bounds probes (the queue always drains).
* `ChaCha8Rng` and `rand::thread_rng` live in external crates, so mine
  placement randomness is modelled from the spec (see `chachaVal`).
-/

set_option maxHeartbeats 1000000
set_option maxRecDepth 2000

/-- The modulus of 64-bit unsigned arithmetic. -/
def u64Mod : Nat := 2 ^ 64

/-- Wrapping `u64` increment, as in release-mode Rust `x += 1`. -/
def inc64 (n : Nat) : Nat := (n + 1) % u64Mod

/-- Wrapping `u64` decrement, as in release-mode Rust `x -= 1`. -/
def dec64 (n : Nat) : Nat := (n + (u64Mod - 1)) % u64Mod

/-- `GameState` from minesweeper_model.rs. -/
inductive GameState where
  | Running
  | Victory
  | Loss
deriving DecidableEq

/-- `CellState` from minesweeper_model.rs.  The `Nat` in the mine variants and
the trailing `Nat` of the empty variants is the `u8` highlight-group bitmask;
the empty variants carry the `u32` true mine count and the `i32` delta. -/
inductive CellState where
  | UndiscoveredMine (g : Nat)
  | MarkedMine (g : Nat)
  | ExplodedMine (g : Nat)
  | UndiscoveredEmpty (c : Nat) (d : Int) (g : Nat)
  | MarkedEmpty (c : Nat) (d : Int) (g : Nat)
  | DiscoveredEmpty (c : Nat) (d : Int) (g : Nat)
deriving DecidableEq

/-- The six axis extents (`size: [usize; 6]`, in order x,y,z,u,v,w). -/
structure Dims where
  x : Nat
  y : Nat
  z : Nat
  u : Nat
  v : Nat
  w : Nat
deriving DecidableEq

/-- The six per-axis wrap flags (`wrap: [bool; 6]`). -/
structure Wraps where
  x : Bool
  y : Bool
  z : Bool
  u : Bool
  v : Bool
  w : Bool
deriving DecidableEq

/-- A 6-dimensional cell coordinate (`[usize; 6]`). -/
structure Coord where
  x : Nat
  y : Nat
  z : Nat
  u : Nat
  v : Nat
  w : Nat
deriving DecidableEq

/-- A 6-tuple of `i32` values, as produced by the six nested `BWI` loops
before the `as usize` casts. -/
structure ICoord where
  x : Int
  y : Int
  z : Int
  u : Int
  v : Int
  w : Int
deriving DecidableEq

/-- A coordinate is in bounds when every component is below the axis extent. -/
def inBounds (d : Dims) (c : Coord) : Prop :=
  c.x < d.x ∧ c.y < d.y ∧ c.z < d.z ∧ c.u < d.u ∧ c.v < d.v ∧ c.w < d.w

instance (d : Dims) (c : Coord) : Decidable (inBounds d c) := by
  unfold inBounds; infer_instance

/-- The `current`/`to` phase of `<BWI as Iterator>::next`: the iterator holds
`Some cur`, emits it, and advances to `cur+1` while `cur + 1 ≤ to`.  Note that
`cur` itself is emitted unconditionally, even when `cur > to`.  The fuel
argument counts the remaining advances, `(to - cur).toNat`. -/
def midRunAux (cur : Int) : Nat → List Int
  | 0 => [cur]
  | n + 1 => cur :: midRunAux (cur + 1) n

/-- The middle (clipped) run of a `BWI` iteration. -/
def midRun (cur hi : Int) : List Int :=
  midRunAux cur (hi - cur).toNat

/-- The full emission sequence of `BWI::new(f, t, lo, hi, wrap)`:
`first` (which is `lo` when `t > hi && wrap`), then the `current..to` run
starting at `if f > lo then f else lo` with upper bound `if t < hi then t
else hi`, then `last` (which is `hi` when `f < lo && wrap`). -/
def bwiList (f t lo hi : Int) (wrap : Bool) : List Int :=
  (if t > hi ∧ wrap then [lo] else [])
    ++ midRun (if f > lo then f else lo) (if t < hi then t else hi)
    ++ (if f < lo ∧ wrap then [hi] else [])

/-- The per-axis neighbor window used everywhere in the engine:
`BWI::new(i-1, i+1, 0, n-1, wrap)` around index `i` on an axis of size `n`. -/
def axisWindow (i n : Nat) (wrap : Bool) : List Int :=
  bwiList ((i : Int) - 1) ((i : Int) + 1) 0 ((n : Int) - 1) wrap

/-- A coordinate viewed as a tuple of `i32` values (`ix as i32`, ...). -/
def icoordOf (c : Coord) : ICoord :=
  ⟨(c.x : Int), (c.y : Int), (c.z : Int), (c.u : Int), (c.v : Int), (c.w : Int)⟩

/-- The `as usize` casts applied to a tuple of loop variables. -/
def coordOfI (t : ICoord) : Coord :=
  ⟨t.x.toNat, t.y.toNat, t.z.toNat, t.u.toNat, t.v.toNat, t.w.toNat⟩

/-- The cross product of the six per-axis `BWI` windows around `c`, in the
nesting order of the source (w outermost, x innermost), before the
center-exclusion test. -/
def windowTuples (d : Dims) (wr : Wraps) (c : Coord) : List ICoord :=
  (axisWindow c.w d.w wr.w).flatMap fun iw =>
  (axisWindow c.v d.v wr.v).flatMap fun iv =>
  (axisWindow c.u d.u wr.u).flatMap fun iu =>
  (axisWindow c.z d.z wr.z).flatMap fun iz =>
  (axisWindow c.y d.y wr.y).flatMap fun iy =>
  (axisWindow c.x d.x wr.x).map fun ix => ⟨ix, iy, iz, iu, iv, iw⟩

/-- The neighbor enumeration of `mark_at` and of the flood fill: every window
tuple except those equal (componentwise, as `i32`) to the center, cast to
`usize` coordinates.  A coordinate may occur several times (wrapped axes of
size ≤ 2). -/
def neighborList (d : Dims) (wr : Wraps) (c : Coord) : List Coord :=
  ((windowTuples d wr c).filter fun t => t ≠ icoordOf c).map coordOfI

/-- The window enumeration of the neighbor-counting pass of `GameBoard::new`,
which performs no center-exclusion test. -/
def fullWindowList (d : Dims) (wr : Wraps) (c : Coord) : List Coord :=
  (windowTuples d wr c).map coordOfI

/-- `GameBoard` from minesweeper_model.rs.  The nested vector `board` is
embedded as a total function on coordinates. -/
structure GameBoard where
  size : Dims
  wrap : Wraps
  seed : Nat
  board : Coord → CellState
  state : GameState
  mine_count : Nat
  marked_as_mine : Nat
  undiscoved_empty_fields : Nat
  total_fields : Nat

/-- Pointwise update of the board map (one `self.board[..][..] = v`). -/
def updCell (f : Coord → CellState) (c : Coord) (v : CellState) : Coord → CellState :=
  fun e => if e = c then v else f e

/-- One iteration of the delta-adjustment loop body of `mark_at`: the three empty
variants get their delta shifted by `s`, every other variant is untouched. -/
def adjustDelta (s : Int) : CellState → CellState
  | .UndiscoveredEmpty c d g => .UndiscoveredEmpty c (d + s) g
  | .DiscoveredEmpty c d g => .DiscoveredEmpty c (d + s) g
  | .MarkedEmpty c d g => .MarkedEmpty c (d + s) g
  | v => v

/-- The delta-adjustment loop of `mark_at`: visit the neighbor occurrences in
order and shift the delta of each empty cell encountered. -/
def applyMarkDeltas (s : Int) (f : Coord → CellState) (l : List Coord) : Coord → CellState :=
  l.foldl (fun f p => updCell f p (adjustDelta s (f p))) f

/-- `GameBoard::mark_at`. -/
def mark_at (b : GameBoard) (c : Coord) : GameBoard :=
  let nbrs := neighborList b.size b.wrap c
  let b1 :=
    match b.board c with
    | .UndiscoveredMine _ | .UndiscoveredEmpty _ _ _ =>
        { b with board := applyMarkDeltas (-1) b.board nbrs }
    | .MarkedMine _ | .MarkedEmpty _ _ _ =>
        { b with board := applyMarkDeltas 1 b.board nbrs }
    | _ => b
  match b1.board c with
  | .UndiscoveredMine g =>
      { b1 with marked_as_mine := inc64 b1.marked_as_mine,
                board := updCell b1.board c (.MarkedMine g) }
  | .MarkedMine g =>
      { b1 with marked_as_mine := dec64 b1.marked_as_mine,
                board := updCell b1.board c (.UndiscoveredMine g) }
  | .ExplodedMine _ => b1
  | .UndiscoveredEmpty cc d g =>
      { b1 with marked_as_mine := inc64 b1.marked_as_mine,
                board := updCell b1.board c (.MarkedEmpty cc d g) }
  | .MarkedEmpty cc d g =>
      { b1 with marked_as_mine := dec64 b1.marked_as_mine,
                board := updCell b1.board c (.UndiscoveredEmpty cc d g) }
  | .DiscoveredEmpty _ _ _ => b1

/-- `GameBoard::highlight_at`: bitwise-or the group into the highlight mask
(`enable`), or bitwise-and with its `u8` complement (`!enable`). -/
def highlight_at (b : GameBoard) (c : Coord) (grp : Nat) (en : Bool) : GameBoard :=
  let f : Nat → Nat := if en then (fun g => g ||| grp) else (fun g => g &&& (grp ^^^ 255))
  let v :=
    match b.board c with
    | .UndiscoveredMine g => .UndiscoveredMine (f g)
    | .MarkedMine g => .MarkedMine (f g)
    | .ExplodedMine g => .ExplodedMine (f g)
    | .UndiscoveredEmpty cc d g => .UndiscoveredEmpty cc d (f g)
    | .MarkedEmpty cc d g => .MarkedEmpty cc d (f g)
    | .DiscoveredEmpty cc d g => .DiscoveredEmpty cc d (f g)
  { b with board := updCell b.board c v }

/-- The body of one `while let` iteration of `GameBoard::probe_at`: process a
dequeued coordinate, returning the updated board and the coordinates pushed
onto the back of the queue. -/
def probeStep (b : GameBoard) (p : Coord) (pm : Bool) : GameBoard × List Coord :=
  match b.board p with
  | .UndiscoveredMine g =>
      ({ b with board := updCell b.board p (.ExplodedMine g), state := .Loss }, [])
  | .MarkedMine g =>
      if pm then
        let b1 := mark_at b p
        ({ b1 with board := updCell b1.board p (.ExplodedMine g), state := .Loss }, [])
      else (b, [])
  | .ExplodedMine _ => (b, [])
  | .UndiscoveredEmpty cc d g =>
      let b1 := { b with board := updCell b.board p (.DiscoveredEmpty cc d g),
                         undiscoved_empty_fields := dec64 b.undiscoved_empty_fields }
      (b1, if cc = 0 then neighborList b.size b.wrap p else [])
  | .MarkedEmpty cc d g =>
      if pm then
        let b1 := mark_at b p
        ({ b1 with board := updCell b1.board p (.DiscoveredEmpty cc d g),
                   undiscoved_empty_fields := dec64 b1.undiscoved_empty_fields }, [])
      else (b, [])
  | .DiscoveredEmpty _ _ _ => (b, [])

/-- The FIFO flood-fill loop of `probe_at`, with explicit fuel.  Returns the
final board together with the unprocessed remainder of the queue (empty
whenever the fuel was sufficient, which `probeFuel` always is for in-bounds
probes). -/
def probeAux (pm : Bool) : Nat → GameBoard → List Coord → GameBoard × List Coord
  | _, b, [] => (b, [])
  | 0, b, q => (b, q)
  | fuel + 1, b, p :: q =>
      let s := probeStep b p pm
      probeAux pm fuel s.1 (q ++ s.2)

/-- Every in-bounds coordinate, enumerated once. -/
def allCoords (d : Dims) : List Coord :=
  (List.range d.w).flatMap fun iw =>
  (List.range d.v).flatMap fun iv =>
  (List.range d.u).flatMap fun iu =>
  (List.range d.z).flatMap fun iz =>
  (List.range d.y).flatMap fun iy =>
  (List.range d.x).map fun ix => ⟨ix, iy, iz, iu, iv, iw⟩

/-- Fuel for the flood fill: ample for the measure
`queue length + 730 * (number of undiscovered zero-count cells)`. -/
def probeFuel (b : GameBoard) : Nat := 1 + 730 * (allCoords b.size).length

/-- The drained state of the flood-fill loop of `probe_at`, before the final
victory test. -/
def probeRun (b : GameBoard) (c : Coord) (pm : Bool) : GameBoard × List Coord :=
  probeAux pm (probeFuel b) b [c]

/-- `GameBoard::probe_at` (the returned `GameState` of the source is the
`state` field of the returned board). -/
def probe_at (b : GameBoard) (c : Coord) (pm : Bool) : GameBoard :=
  let r := probeRun b c pm
  if r.1.state ≠ .Loss ∧ r.1.undiscoved_empty_fields = 0 then
    { r.1 with state := .Victory }
  else r.1

/-- Mirror of `probeAux` computing whether some dequeued cell fires a
loss-causing arm: an `UndiscoveredMine`, or a `MarkedMine` with probing of
marked cells allowed. -/
def probeAuxHit (pm : Bool) : Nat → GameBoard → List Coord → Bool
  | _, _, [] => false
  | 0, _, _ => false
  | fuel + 1, b, p :: q =>
      let hit := match b.board p with
        | .UndiscoveredMine _ => true
        | .MarkedMine _ => pm
        | _ => false
      let s := probeStep b p pm
      hit || probeAuxHit pm fuel s.1 (q ++ s.2)

/-- Whether the flood fill of `probe_at b c pm` dequeues a mine cell. -/
def probeHit (b : GameBoard) (c : Coord) (pm : Bool) : Bool :=
  probeAuxHit pm (probeFuel b) b [c]

/-- Modelled from the spec: `ChaCha8Rng::seed_from_u64` (crate `rand_chacha`,
not part of this repository) is "a deterministic pseudo-random generator keyed
on the resolved seed".  It is modelled as the byte stream of the seed: draw
`k` of the generator keyed on `seed` is byte `k` of `seed`. -/
def chachaVal (seed k : Nat) : Nat := (seed / 256 ^ k) % 256

/-- One per-axis draw of the mine-placement loop: `rng.gen_range(0..n)` when
the axis has size greater than 1 (consuming one draw), and the constant 0
otherwise (consuming no randomness), as in `GameBoard::new`. -/
def drawAxis (seed k n : Nat) : Nat × Nat :=
  if n > 1 then (chachaVal seed k % n, k + 1) else (0, k)

/-- One candidate mine coordinate: six per-axis draws in axis order
x, y, z, u, v, w. -/
def drawMineCoord (seed k : Nat) (d : Dims) : Coord × Nat :=
  let rx := drawAxis seed k d.x
  let ry := drawAxis seed rx.2 d.y
  let rz := drawAxis seed ry.2 d.z
  let ru := drawAxis seed rz.2 d.u
  let rv := drawAxis seed ru.2 d.v
  let rw := drawAxis seed rv.2 d.w
  (⟨rx.1, ry.1, rz.1, ru.1, rv.1, rw.1⟩, rw.2)

/-- The rejection-sampling mine-placement loop of `GameBoard::new`
(`while mines_placed < mine_count`), with explicit fuel: draw a candidate,
place an `UndiscoveredMine` there if the cell is still `UndiscoveredEmpty(0,0,0)`.
The fuel only truncates runs of a pathological random stream; it does not
affect any seeded run used below. -/
def placeMines (seed : Nat) (d : Dims) (mc : Nat) :
    Nat → Nat → Nat → (Coord → CellState) → (Coord → CellState)
  | 0, _, _, cells => cells
  | fuel + 1, k, placed, cells =>
      if placed < mc then
        let r := drawMineCoord seed k d
        if cells r.1 = .UndiscoveredEmpty 0 0 0 then
          placeMines seed d mc fuel r.2 (placed + 1) (updCell cells r.1 (.UndiscoveredMine 0))
        else
          placeMines seed d mc fuel r.2 placed cells
      else cells

/-- The count of `UndiscoveredMine` cells over the full (non-excluding)
neighbor window, as computed by the counting pass of `GameBoard::new`. -/
def genMineCount (d : Dims) (wr : Wraps) (cells : Coord → CellState) (c : Coord) : Nat :=
  (fullWindowList d wr c).countP fun p =>
    match cells p with
    | .UndiscoveredMine _ => true
    | _ => false

/-- The grid after the mine-placement loop of one generation attempt:
an all-`UndiscoveredEmpty(0,0,0)` grid run through the placement loop. -/
def placedCells (d : Dims) (mc seed : Nat) : Coord → CellState :=
  placeMines seed d mc (64 * (mc + 1)) 0 0 (fun _ => .UndiscoveredEmpty 0 0 0)

/-- One full generation attempt of `GameBoard::new` for a resolved seed:
the placed grid, then the neighbor-counting pass writing
`UndiscoveredEmpty(count, count, 0)` into every cell still equal to
`UndiscoveredEmpty(0,0,0)`.  (The sequential counting pass of the source reads
only `UndiscoveredMine` cells, which it never writes, so it equals this
simultaneous assignment.) -/
def genBoardCells (d : Dims) (wr : Wraps) (mc seed : Nat) : Coord → CellState :=
  fun c =>
    if placedCells d mc seed c = .UndiscoveredEmpty 0 0 0 then
      .UndiscoveredEmpty (genMineCount d wr (placedCells d mc seed) c)
        ((genMineCount d wr (placedCells d mc seed) c : Int)) 0
    else placedCells d mc seed c

/-- The regeneration loop of `GameBoard::new`: resolve the seed (the supplied
one, or a fresh draw `dumb att` from the non-deterministic source — modelled
from the spec, since `rand::thread_rng` is an external crate), generate, and
stop immediately when a seed was supplied or no initial coordinate was given;
otherwise retry until the initial coordinate lands on an empty cell.  Returns
the resolved seed and the accepted grid. -/
def genLoop (d : Dims) (wr : Wraps) (mc : Nat) (initial : Option Coord)
    (seedOpt : Option Nat) (dumb : Nat → Nat) :
    Nat → Nat → Nat × (Coord → CellState)
  | 0, att =>
      let s := seedOpt.getD (dumb att)
      (s, genBoardCells d wr mc s)
  | fuel + 1, att =>
      let s := seedOpt.getD (dumb att)
      let cells := genBoardCells d wr mc s
      if seedOpt.isSome then (s, cells)
      else
        match initial with
        | some c =>
            (match cells c with
             | .UndiscoveredEmpty _ _ _ => (s, cells)
             | _ => genLoop d wr mc initial seedOpt dumb fuel (att + 1))
        | none => (s, cells)

/-- `GameBoard::new`.  `dumb` models the stream of draws of the
non-deterministic `rand::thread_rng` source (one per generation attempt);
it is consulted only when no explicit seed is supplied. -/
def GameBoard.new (d : Dims) (wr : Wraps) (mc : Nat) (initial : Option Coord)
    (seedOpt : Option Nat) (dumb : Nat → Nat) : GameBoard :=
  let r := genLoop d wr mc initial seedOpt dumb 64 0
  let total := (d.x * d.y * d.z * d.u * d.v * d.w) % u64Mod
  let b : GameBoard :=
    { size := d
      wrap := wr
      seed := r.1
      board := r.2
      state := .Running
      mine_count := mc
      marked_as_mine := 0
      undiscoved_empty_fields := (total + (u64Mod - mc % u64Mod)) % u64Mod
      total_fields := total }
  match initial with
  | some c => probe_at b c false
  | none => b

/-- The boards of the engine: those produced by `GameBoard::new` and closed
under the three mutating commands at in-bounds coordinates. -/
inductive Reachable : GameBoard → Prop where
  | base : ∀ d wr mc initial seedOpt dumb,
      (∀ c, initial = some c → inBounds d c) →
      Reachable (GameBoard.new d wr mc initial seedOpt dumb)
  | probe : ∀ b c pm, Reachable b → inBounds b.size c → Reachable (probe_at b c pm)
  | mark : ∀ b c, Reachable b → inBounds b.size c → Reachable (mark_at b c)
  | highlight : ∀ b c grp en, Reachable b → inBounds b.size c →
      Reachable (highlight_at b c grp en)

/-- Whether a cell is currently marked (flag planted), regardless of content. -/
def isMarkedCell : CellState → Bool
  | .MarkedMine _ => true
  | .MarkedEmpty _ _ _ => true
  | _ => false

/-- Whether a cell contains a mine (in any of its three states). -/
def isMineCell : CellState → Bool
  | .UndiscoveredMine _ => true
  | .MarkedMine _ => true
  | .ExplodedMine _ => true
  | _ => false

/-- Whether a cell is an undiscovered empty cell with zero mine count
(the cells from which the flood fill propagates). -/
def isUZeroCell : CellState → Bool
  | .UndiscoveredEmpty 0 _ _ => true
  | _ => false

/-- The `(mine_count, delta)` payload of the three empty variants. -/
def emptyData : CellState → Option (Nat × Int)
  | .UndiscoveredEmpty c d _ => some (c, d)
  | .MarkedEmpty c d _ => some (c, d)
  | .DiscoveredEmpty c d _ => some (c, d)
  | _ => none

/-- The `mine_count` payload of the three empty variants. -/
def ccOf (v : CellState) : Option Nat := (emptyData v).map Prod.fst

/-- The number of currently marked cells among the neighbor occurrences of
`c` (a neighbor reached along several wrapped offsets counts once per
occurrence). -/
def markedNbrCount (d : Dims) (wr : Wraps) (f : Coord → CellState) (c : Coord) : Nat :=
  (neighborList d wr c).countP fun p => isMarkedCell (f p)

/-- The number of marked mines (`MarkedMine` cells) among the neighbor
occurrences of `c`, the literal reading of the claimed invariant. -/
def markedMineNbrCount (d : Dims) (wr : Wraps) (f : Coord → CellState) (c : Coord) : Nat :=
  (neighborList d wr c).countP fun p =>
    match f p with
    | .MarkedMine _ => true
    | _ => false

/-- The number of mine cells among the neighbor occurrences of `c`, counted
with multiplicity. -/
def mineNbrCount (d : Dims) (wr : Wraps) (f : Coord → CellState) (c : Coord) : Nat :=
  (neighborList d wr c).countP fun p => isMineCell (f p)

/-- The delta bookkeeping invariant: every in-bounds empty cell's delta equals
its mine count minus the number of currently marked cells among its neighbor
occurrences. -/
def DeltaInv (b : GameBoard) : Prop :=
  ∀ c, inBounds b.size c → ∀ cc dd, emptyData (b.board c) = some (cc, dd) →
    dd = (cc : Int) - (markedNbrCount b.size b.wrap b.board c : Int)

/-- The mine-count invariant: every in-bounds empty cell's mine count equals
the number of mine cells among its neighbor occurrences. -/
def MineCountOK (b : GameBoard) : Prop :=
  ∀ c, inBounds b.size c → ∀ cc, ccOf (b.board c) = some cc →
    cc = mineNbrCount b.size b.wrap b.board c

/-- An ascending run of `n` consecutive integers starting at `lo`. -/
def intRangeAux (lo : Int) : Nat → List Int
  | 0 => []
  | n + 1 => lo :: intRangeAux (lo + 1) n

/-- The ascending integer run from `lo` to `hi` inclusive (empty when
`lo > hi`); the sequence the specification ascribes to the clipped window. -/
def intRange (lo hi : Int) : List Int :=
  intRangeAux lo (hi + 1 - lo).toNat

/-- The sequence the specification ascribes to
`BWI::new(f, t, lo, hi, wrap)`: the wrapped-low value (when `wrap` and the
original `t` exceeds `hi`), then the ascending contiguous run
`max f lo .. min t hi`, then the wrapped-high value (when `wrap` and the
original `f` is below `lo`). -/
def specClaimedBWI (f t lo hi : Int) (w : Bool) : List Int :=
  (if w ∧ hi < t then [lo] else [])
    ++ intRange (max f lo) (min t hi)
    ++ (if w ∧ f < lo then [hi] else [])

/-- The number of distinct mine cells in the neighbor set (each neighboring
coordinate counted once, however many wrapped offsets reach it) — the literal
"number of mine cells in the neighbor set" of the claim. -/
def specDistinctMineNbrs (d : Dims) (wr : Wraps) (f : Coord → CellState)
    (c : Coord) : Nat :=
  ((neighborList d wr c).dedup.countP fun p => isMineCell (f p))

/-- Coordinates reachable from `s` through undiscovered zero-count empty
cells: `s` itself, and every neighbor of a reachable cell that is an
`UndiscoveredEmpty` with mine count 0 on the board `f`. -/
inductive UFlood (d : Dims) (wr : Wraps) (f : Coord → CellState) (s : Coord) :
    Coord → Prop where
  | start : UFlood d wr f s s
  | step : ∀ p q, UFlood d wr f s p → isUZeroCell (f p) = true →
      q ∈ neighborList d wr p → UFlood d wr f s q

/-- The connected zero-mine-count region through `s`, as worded by the claim:
cells of mine count 0 (in any empty variant) connected to `s` through
zero-count cells. -/
inductive specZeroRegion (d : Dims) (wr : Wraps) (f : Coord → CellState)
    (s : Coord) : Coord → Prop where
  | start : specZeroRegion d wr f s s
  | step : ∀ p q, specZeroRegion d wr f s p → ccOf (f p) = some 0 →
      q ∈ neighborList d wr p → ccOf (f q) = some 0 → specZeroRegion d wr f s q

/-- The bordering layer of the zero region: non-zero-count cells adjacent to
a zero cell of the region. -/
def specZeroBorder (d : Dims) (wr : Wraps) (f : Coord → CellState)
    (s e : Coord) : Prop :=
  (∃ p, specZeroRegion d wr f s p ∧ ccOf (f p) = some 0 ∧
    e ∈ neighborList d wr p) ∧ ccOf (f e) ≠ some 0

/-- What the flood fill does to a cell it reveals. -/
def discoverCell : CellState → CellState
  | .UndiscoveredEmpty c d g => .DiscoveredEmpty c d g
  | v => v

/-- The in-bounds undiscovered zero-count cells of a board map. -/
def uzeroFinset (d : Dims) (f : Coord → CellState) : Finset Coord :=
  (allCoords d).toFinset.filter fun e => isUZeroCell (f e)

/-- Termination measure of the flood fill. -/
def probeMeasure (d : Dims) (f : Coord → CellState) (q : List Coord) : Nat :=
  q.length + 730 * (uzeroFinset d f).card

/-- The exact change `mark_at` applies to the marked-count counter, by target
variant: +1 when marking, -1 when unmarking, 0 on the two terminal variants. -/
def markCounterDelta : CellState → Int
  | .UndiscoveredMine _ => 1
  | .UndiscoveredEmpty _ _ _ => 1
  | .MarkedMine _ => -1
  | .MarkedEmpty _ _ _ => -1
  | _ => 0

/-- A small fixed board used to instantiate universally quantified theorems:
a 2-cell strip whose cells are all `UndiscoveredEmpty(1, 1, 0)`. -/
def exStaticBoard : GameBoard :=
  { size := ⟨2, 1, 1, 1, 1, 1⟩
    wrap := ⟨false, false, false, false, false, false⟩
    seed := 0
    board := fun _ => CellState.UndiscoveredEmpty 1 1 0
    state := GameState.Running
    mine_count := 1
    marked_as_mine := 0
    undiscoved_empty_fields := 2
    total_fields := 2 }

/-- The origin coordinate. -/
def exC0 : Coord := ⟨0, 0, 0, 0, 0, 0⟩

/-- The coordinate one step along the x axis. -/
def exC1 : Coord := ⟨1, 0, 0, 0, 0, 0⟩

/-- The coordinate two steps along the x axis. -/
def exC2 : Coord := ⟨2, 0, 0, 0, 0, 0⟩

/-- No wrapping on any axis. -/
def noWraps : Wraps := ⟨false, false, false, false, false, false⟩

/-- Wrapping on the x axis only. -/
def wrapXOnly : Wraps := ⟨true, false, false, false, false, false⟩

/-- A fixed stand-in for the non-deterministic seed source. -/
def dumbZero : Nat → Nat := fun _ => 0

theorem midRunAux_eq_intRangeAux (cur : Int) (n : Nat) :
    midRunAux cur n = intRangeAux cur (n + 1) := by
  induction n generalizing cur with
  | zero => rfl
  | succ n ih => rw [midRunAux, intRangeAux, ih]

theorem midRun_eq_intRange (cur hi : Int) (h : cur ≤ hi) :
    midRun cur hi = intRange cur hi := by
  rw [midRun, intRange, midRunAux_eq_intRangeAux]
  congr 1
  omega

theorem intRangeAux_count (v lo : Int) (n : Nat) :
    (intRangeAux lo n).count v = if lo ≤ v ∧ v < lo + n then 1 else 0 := by
  induction n generalizing lo with
  | zero =>
      rw [intRangeAux]
      simp only [List.count_nil]
      rw [if_neg (by omega)]
  | succ n ih =>
      simp only [intRangeAux, List.count_cons, ih, beq_iff_eq]
      split_ifs <;> omega

theorem midRunAux_count (v cur : Int) (n : Nat) :
    (midRunAux cur n).count v = if cur ≤ v ∧ v ≤ cur + n then 1 else 0 := by
  rw [midRunAux_eq_intRangeAux, intRangeAux_count]
  split_ifs <;> omega

theorem intRangeAux_mem {v lo : Int} {n : Nat} (h : v ∈ intRangeAux lo n) :
    lo ≤ v ∧ v < lo + n := by
  induction n generalizing lo with
  | zero => simp [intRangeAux] at h
  | succ n ih =>
      rw [intRangeAux, List.mem_cons] at h
      rcases h with h | h
      · omega
      · have := ih h; omega

theorem midRunAux_mem {v cur : Int} {n : Nat} (h : v ∈ midRunAux cur n) :
    cur ≤ v ∧ v ≤ cur + n := by
  rw [midRunAux_eq_intRangeAux] at h
  have := intRangeAux_mem h; omega

theorem intRangeAux_length (lo : Int) (n : Nat) : (intRangeAux lo n).length = n := by
  induction n generalizing lo with
  | zero => rfl
  | succ n ih => rw [intRangeAux, List.length_cons, ih]

theorem midRunAux_length (cur : Int) (n : Nat) : (midRunAux cur n).length = n + 1 := by
  rw [midRunAux_eq_intRangeAux, intRangeAux_length]

theorem midRun_count (v cur hi : Int) (h : cur ≤ hi) :
    (midRun cur hi).count v = if cur ≤ v ∧ v ≤ hi then 1 else 0 := by
  rw [midRun, midRunAux_count]
  split_ifs <;> omega

theorem neg_one_emod (N : Int) (h : 1 ≤ N) : (-1) % N = N - 1 := by
  have h2 : ((-1 : Int) + N * 1) % N = (-1) % N := Int.add_mul_emod_self_left (-1) N 1
  rw [mul_one] at h2
  have h3 : ((-1 : Int) + N) % N = (-1 : Int) + N := Int.emod_eq_of_lt (by omega) (by omega)
  rw [h3] at h2
  rw [← h2]
  omega

theorem emod_shift_iff (x s y N : Int) (hx0 : 0 ≤ x) (hx1 : x < N)
    (hy0 : 0 ≤ y) (hy1 : y < N) : (x + s) % N = y ↔ (y - s) % N = x := by
  have hxx : x % N = x := Int.emod_eq_of_lt hx0 hx1
  have hyy : y % N = y := Int.emod_eq_of_lt hy0 hy1
  constructor
  · intro h
    have hm : Int.ModEq N (x + s) y := by
      unfold Int.ModEq
      rw [h, hyy]
    have hm2 : Int.ModEq N x (y - s) := by
      have hs := Int.ModEq.sub_right s hm
      simpa using hs
    unfold Int.ModEq at hm2
    rw [hxx] at hm2
    exact hm2.symm
  · intro h
    have hm : Int.ModEq N (y - s) x := by
      unfold Int.ModEq
      rw [h, hxx]
    have hm2 : Int.ModEq N y (x + s) := by
      have hs := Int.ModEq.add_right s hm
      simpa using hs
    unfold Int.ModEq at hm2
    rw [hyy] at hm2
    exact hm2.symm

theorem axisWindow_count_false (i n : Nat) (h : i < n) (v : Int) :
    (axisWindow i n false).count v =
      if (i : Int) - 1 ≤ v ∧ v ≤ (i : Int) + 1 ∧ 0 ≤ v ∧ v ≤ (n : Int) - 1
      then 1 else 0 := by
  have hcur : (if (i : Int) - 1 > 0 then (i : Int) - 1 else (0 : Int)) ≤
      (if (i : Int) + 1 < (n : Int) - 1 then (i : Int) + 1 else (n : Int) - 1) := by
    split_ifs <;> omega
  rw [axisWindow, bwiList]
  simp only [Bool.false_eq_true, and_false, if_false, List.nil_append, List.append_nil]
  rw [midRun_count _ _ _ hcur]
  split_ifs <;> omega

theorem axisWindow_count_true (i n : Nat) (h : i < n) (v : Int) :
    (axisWindow i n true).count v =
      (if ((i : Int) - 1) % (n : Int) = v then 1 else 0) +
      (if (i : Int) % (n : Int) = v then 1 else 0) +
      (if ((i : Int) + 1) % (n : Int) = v then 1 else 0) := by
  have hN : (1 : Int) ≤ (n : Int) := by omega
  have e2 : (i : Int) % (n : Int) = (i : Int) :=
    Int.emod_eq_of_lt (by omega) (by omega)
  have e1 : ((i : Int) - 1) % (n : Int) = if i = 0 then (n : Int) - 1 else (i : Int) - 1 := by
    by_cases h0 : i = 0
    · rw [if_pos h0, h0]
      simpa using neg_one_emod (n : Int) hN
    · rw [if_neg h0]
      exact Int.emod_eq_of_lt (by omega) (by omega)
  have e3 : ((i : Int) + 1) % (n : Int) = if i + 1 = n then 0 else (i : Int) + 1 := by
    by_cases h1 : i + 1 = n
    · rw [if_pos h1]
      have hh : (i : Int) + 1 = (n : Int) := by omega
      rw [hh, Int.emod_self]
    · rw [if_neg h1]
      exact Int.emod_eq_of_lt (by omega) (by omega)
  have hcur : (if (i : Int) - 1 > 0 then (i : Int) - 1 else (0 : Int)) ≤
      (if (i : Int) + 1 < (n : Int) - 1 then (i : Int) + 1 else (n : Int) - 1) := by
    split_ifs <;> omega
  rw [axisWindow, bwiList, List.count_append, List.count_append, e1, e2, e3]
  rw [midRun_count _ _ _ hcur]
  rw [apply_ite (List.count v), apply_ite (List.count v)]
  simp only [eq_self_iff_true, and_true, List.count_nil, List.count_cons, beq_iff_eq]
  split_ifs <;> omega

theorem axisWindow_count_symm (a b n : Nat) (ha : a < n) (hb : b < n) (w : Bool) :
    (axisWindow a n w).count (b : Int) = (axisWindow b n w).count (a : Int) := by
  cases w
  · rw [axisWindow_count_false a n ha, axisWindow_count_false b n hb]
    split_ifs <;> omega
  · rw [axisWindow_count_true a n ha, axisWindow_count_true b n hb]
    have h1 : (((a : Int) - 1) % (n : Int) = (b : Int)) ↔
        (((b : Int) + 1) % (n : Int) = (a : Int)) := by
      have hs := emod_shift_iff (a : Int) (-1) (b : Int) (n : Int)
        (by omega) (by omega) (by omega) (by omega)
      rw [show (a : Int) + -1 = (a : Int) - 1 by ring] at hs
      rw [show (b : Int) - -1 = (b : Int) + 1 by ring] at hs
      exact hs
    have h2 : ((a : Int) % (n : Int) = (b : Int)) ↔
        ((b : Int) % (n : Int) = (a : Int)) := by
      rw [Int.emod_eq_of_lt (by omega) (by omega),
          Int.emod_eq_of_lt (by omega) (by omega)]
      omega
    have h3 : (((a : Int) + 1) % (n : Int) = (b : Int)) ↔
        (((b : Int) - 1) % (n : Int) = (a : Int)) :=
      emod_shift_iff (a : Int) 1 (b : Int) (n : Int)
        (by omega) (by omega) (by omega) (by omega)
    simp only [h1, h2, h3]
    split_ifs <;> omega

theorem count_level1 (xs : List Int) (y z u v w : Int) (t : ICoord) :
    ((xs.map fun ix => (⟨ix, y, z, u, v, w⟩ : ICoord)).count t) =
      if y = t.y ∧ z = t.z ∧ u = t.u ∧ v = t.v ∧ w = t.w then xs.count t.x else 0 := by
  obtain ⟨tx, ty, tz, tu, tv, tw⟩ := t
  induction xs with
  | nil => simp
  | cons a l ih =>
      simp only [List.map_cons, List.count_cons, ih, beq_iff_eq, ICoord.mk.injEq]
      split_ifs <;> omega

theorem count_level2 (ys xs : List Int) (z u v w : Int) (t : ICoord) :
    ((ys.flatMap fun iy => xs.map fun ix => (⟨ix, iy, z, u, v, w⟩ : ICoord)).count t) =
      if z = t.z ∧ u = t.u ∧ v = t.v ∧ w = t.w
      then ys.count t.y * xs.count t.x else 0 := by
  induction ys with
  | nil => simp
  | cons a l ih =>
      simp only [List.flatMap_cons, List.count_append, ih, count_level1,
        List.count_cons, beq_iff_eq]
      split_ifs <;> first | omega | ring

theorem count_level3 (zs ys xs : List Int) (u v w : Int) (t : ICoord) :
    ((zs.flatMap fun iz => ys.flatMap fun iy => xs.map fun ix =>
        (⟨ix, iy, iz, u, v, w⟩ : ICoord)).count t) =
      if u = t.u ∧ v = t.v ∧ w = t.w
      then zs.count t.z * (ys.count t.y * xs.count t.x) else 0 := by
  induction zs with
  | nil => simp
  | cons a l ih =>
      simp only [List.flatMap_cons, List.count_append, ih, count_level2,
        List.count_cons, beq_iff_eq]
      split_ifs <;> first | omega | ring

theorem count_level4 (us zs ys xs : List Int) (v w : Int) (t : ICoord) :
    ((us.flatMap fun iu => zs.flatMap fun iz => ys.flatMap fun iy =>
        xs.map fun ix => (⟨ix, iy, iz, iu, v, w⟩ : ICoord)).count t) =
      if v = t.v ∧ w = t.w
      then us.count t.u * (zs.count t.z * (ys.count t.y * xs.count t.x)) else 0 := by
  induction us with
  | nil => simp
  | cons a l ih =>
      simp only [List.flatMap_cons, List.count_append, ih, count_level3,
        List.count_cons, beq_iff_eq]
      split_ifs <;> first | omega | ring

theorem count_level5 (vs us zs ys xs : List Int) (w : Int) (t : ICoord) :
    ((vs.flatMap fun iv => us.flatMap fun iu => zs.flatMap fun iz =>
        ys.flatMap fun iy => xs.map fun ix => (⟨ix, iy, iz, iu, iv, w⟩ : ICoord)).count t) =
      if w = t.w
      then vs.count t.v * (us.count t.u * (zs.count t.z * (ys.count t.y * xs.count t.x)))
      else 0 := by
  induction vs with
  | nil => simp
  | cons a l ih =>
      simp only [List.flatMap_cons, List.count_append, ih, count_level4,
        List.count_cons, beq_iff_eq]
      split_ifs <;> first | omega | ring

theorem count_level6 (ws vs us zs ys xs : List Int) (t : ICoord) :
    ((ws.flatMap fun iw => vs.flatMap fun iv => us.flatMap fun iu =>
        zs.flatMap fun iz => ys.flatMap fun iy => xs.map fun ix =>
        (⟨ix, iy, iz, iu, iv, iw⟩ : ICoord)).count t) =
      ws.count t.w *
        (vs.count t.v * (us.count t.u * (zs.count t.z * (ys.count t.y * xs.count t.x)))) := by
  induction ws with
  | nil => simp
  | cons a l ih =>
      simp only [List.flatMap_cons, List.count_append, ih, count_level5,
        List.count_cons, beq_iff_eq]
      split_ifs <;> first | omega | ring

theorem count_windowTuples (d : Dims) (wr : Wraps) (c : Coord) (t : ICoord) :
    (windowTuples d wr c).count t =
      (axisWindow c.w d.w wr.w).count t.w *
        ((axisWindow c.v d.v wr.v).count t.v *
          ((axisWindow c.u d.u wr.u).count t.u *
            ((axisWindow c.z d.z wr.z).count t.z *
              ((axisWindow c.y d.y wr.y).count t.y *
                (axisWindow c.x d.x wr.x).count t.x)))) := by
  rw [windowTuples, count_level6]

theorem axisWindow_mem_range {i n : Nat} {w : Bool} (h : i < n) {v : Int}
    (hv : v ∈ axisWindow i n w) : 0 ≤ v ∧ v ≤ (n : Int) - 1 := by
  rw [axisWindow, bwiList, List.mem_append, List.mem_append] at hv
  rcases hv with (hv | hv) | hv
  · split_ifs at hv
    · simp only [List.mem_singleton] at hv
      omega
    · simp at hv
  · rw [midRun] at hv
    have hm := midRunAux_mem hv
    split_ifs at hm <;> omega
  · split_ifs at hv
    · simp only [List.mem_singleton] at hv
      omega
    · simp at hv

theorem windowTuples_mem_range {d : Dims} {wr : Wraps} {c : Coord}
    (hc : inBounds d c) {t : ICoord} (ht : t ∈ windowTuples d wr c) :
    (0 ≤ t.x ∧ t.x ≤ (d.x : Int) - 1) ∧ (0 ≤ t.y ∧ t.y ≤ (d.y : Int) - 1) ∧
    (0 ≤ t.z ∧ t.z ≤ (d.z : Int) - 1) ∧ (0 ≤ t.u ∧ t.u ≤ (d.u : Int) - 1) ∧
    (0 ≤ t.v ∧ t.v ≤ (d.v : Int) - 1) ∧ (0 ≤ t.w ∧ t.w ≤ (d.w : Int) - 1) := by
  obtain ⟨hx, hy, hz, hu, hv, hw⟩ := hc
  rw [windowTuples] at ht
  simp only [List.mem_flatMap, List.mem_map] at ht
  obtain ⟨iw, hiw, iv, hiv, iu, hiu, iz, hiz, iy, hiy, ix, hix, rfl⟩ := ht
  exact ⟨axisWindow_mem_range hx hix, axisWindow_mem_range hy hiy,
    axisWindow_mem_range hz hiz, axisWindow_mem_range hu hiu,
    axisWindow_mem_range hv hiv, axisWindow_mem_range hw hiw⟩

theorem coordOfI_icoordOf (c : Coord) : coordOfI (icoordOf c) = c := by
  simp [coordOfI, icoordOf]

theorem icoordOf_inj {a b : Coord} (h : icoordOf a = icoordOf b) : a = b := by
  have := congrArg coordOfI h
  rwa [coordOfI_icoordOf, coordOfI_icoordOf] at this

theorem coordOfI_eq_iff {t : ICoord} (e : Coord)
    (hr : 0 ≤ t.x ∧ 0 ≤ t.y ∧ 0 ≤ t.z ∧ 0 ≤ t.u ∧ 0 ≤ t.v ∧ 0 ≤ t.w) :
    coordOfI t = e ↔ t = icoordOf e := by
  obtain ⟨tx, ty, tz, tu, tv, tw⟩ := t
  obtain ⟨ex, ey, ez, eu, ev, ew⟩ := e
  simp only [coordOfI, icoordOf, Coord.mk.injEq, ICoord.mk.injEq] at *
  omega

theorem count_map_countP {α β : Type} [DecidableEq α] [DecidableEq β]
    (f : α → β) (l : List α) (b : β) :
    (l.map f).count b = l.countP fun a => f a == b := by
  induction l with
  | nil => simp
  | cons a l ih =>
      simp only [List.map_cons, List.count_cons, List.countP_cons, ih]

theorem countP_congr_mem {α : Type} {p q : α → Bool} :
    ∀ {l : List α}, (∀ a ∈ l, p a = q a) → l.countP p = l.countP q := by
  intro l
  induction l with
  | nil => intro _; rfl
  | cons a l ih =>
      intro h
      rw [List.countP_cons, List.countP_cons, ih (fun x hx => h x (List.mem_cons_of_mem a hx)),
        h a (List.mem_cons_self a l)]

theorem count_neighborList (d : Dims) (wr : Wraps) (a e : Coord)
    (ha : inBounds d a) :
    (neighborList d wr a).count e =
      if e = a then 0 else (windowTuples d wr a).count (icoordOf e) := by
  rw [neighborList, count_map_countP, List.countP_filter]
  by_cases hea : e = a
  · rw [if_pos hea]
    subst hea
    apply List.countP_eq_zero.mpr
    intro t ht
    by_cases hc : coordOfI t = e
    · have hr := windowTuples_mem_range ha ht
      have : t = icoordOf e := by
        rw [← coordOfI_eq_iff e ⟨hr.1.1, hr.2.1.1, hr.2.2.1.1, hr.2.2.2.1.1,
          hr.2.2.2.2.1.1, hr.2.2.2.2.2.1⟩]
        exact hc
      simp [this]
    · simp [hc]
  · rw [if_neg hea]
    have hcnt : (windowTuples d wr a).count (icoordOf e) =
        (windowTuples d wr a).countP fun t => t == icoordOf e := rfl
    rw [hcnt]
    apply countP_congr_mem
    intro t ht
    have hr := windowTuples_mem_range ha ht
    have hiff := coordOfI_eq_iff (t := t) e ⟨hr.1.1, hr.2.1.1, hr.2.2.1.1,
      hr.2.2.2.1.1, hr.2.2.2.2.1.1, hr.2.2.2.2.2.1⟩
    by_cases hc : t = icoordOf e
    · subst hc
      have h1 : coordOfI (icoordOf e) = e := coordOfI_icoordOf e
      have h2 : icoordOf e ≠ icoordOf a := fun hh => hea (icoordOf_inj hh)
      simp [h1, h2]
    · have h1 : coordOfI t ≠ e := fun hh => hc (hiff.mp hh)
      have hL : (coordOfI t == e) = false := by simp [h1]
      have hR : (t == icoordOf e) = false := by simp [hc]
      rw [hL, hR, Bool.false_and]

theorem neighborList_count_symm (d : Dims) (wr : Wraps) (a e : Coord)
    (ha : inBounds d a) (he : inBounds d e) :
    (neighborList d wr a).count e = (neighborList d wr e).count a := by
  by_cases hea : e = a
  · subst hea
    rfl
  · rw [count_neighborList d wr a e ha, count_neighborList d wr e a he,
      if_neg hea, if_neg (fun hh => hea hh.symm)]
    rw [count_windowTuples, count_windowTuples]
    simp only [icoordOf]
    rw [axisWindow_count_symm a.w e.w d.w ha.2.2.2.2.2 he.2.2.2.2.2,
      axisWindow_count_symm a.v e.v d.v ha.2.2.2.2.1 he.2.2.2.2.1,
      axisWindow_count_symm a.u e.u d.u ha.2.2.2.1 he.2.2.2.1,
      axisWindow_count_symm a.z e.z d.z ha.2.2.1 he.2.2.1,
      axisWindow_count_symm a.y e.y d.y ha.2.1 he.2.1,
      axisWindow_count_symm a.x e.x d.x ha.1 he.1]

theorem mem_neighborList {d : Dims} {wr : Wraps} {c e : Coord}
    (hc : inBounds d c) (he : e ∈ neighborList d wr c) :
    inBounds d e ∧ e ≠ c := by
  rw [neighborList, List.mem_map] at he
  obtain ⟨t, ht, rfl⟩ := he
  rw [List.mem_filter] at ht
  obtain ⟨htw, htne⟩ := ht
  have hr := windowTuples_mem_range hc htw
  constructor
  · obtain ⟨⟨hx0, hx1⟩, ⟨hy0, hy1⟩, ⟨hz0, hz1⟩, ⟨hu0, hu1⟩, ⟨hv0, hv1⟩, ⟨hw0, hw1⟩⟩ := hr
    refine ⟨?_, ?_, ?_, ?_, ?_, ?_⟩ <;> simp only [coordOfI] <;> omega
  · intro hh
    have : t = icoordOf c := by
      rw [← coordOfI_eq_iff c ⟨hr.1.1, hr.2.1.1, hr.2.2.1.1, hr.2.2.2.1.1,
        hr.2.2.2.2.1.1, hr.2.2.2.2.2.1⟩]
      exact hh
    simp [this] at htne

theorem count_self_neighborList {d : Dims} {wr : Wraps} {c : Coord}
    (hc : inBounds d c) : (neighborList d wr c).count c = 0 :=
  List.count_eq_zero.mpr fun h => (mem_neighborList hc h).2 rfl

theorem axisWindow_length_le {i n : Nat} (h : i < n) (w : Bool) :
    (axisWindow i n w).length ≤ 3 := by
  rw [axisWindow, bwiList, List.length_append, List.length_append, midRun,
    midRunAux_length]
  split_ifs <;> simp <;> omega

theorem length_flatMap_le {α β : Type} (l : List α) (f : α → List β) (B : Nat)
    (h : ∀ a ∈ l, (f a).length ≤ B) : (l.flatMap f).length ≤ l.length * B := by
  induction l with
  | nil => simp
  | cons a l ih =>
      rw [List.flatMap_cons, List.length_append, List.length_cons, Nat.succ_mul]
      have h1 := h a (List.mem_cons_self a l)
      have h2 := ih fun x hx => h x (List.mem_cons_of_mem a hx)
      omega

theorem windowTuples_length_le {d : Dims} {wr : Wraps} {c : Coord}
    (hc : inBounds d c) : (windowTuples d wr c).length ≤ 729 := by
  obtain ⟨hx, hy, hz, hu, hv, hw⟩ := hc
  rw [windowTuples]
  have L1 : ∀ (iy iz iu iv iw : Int),
      ((axisWindow c.x d.x wr.x).map fun ix =>
        (⟨ix, iy, iz, iu, iv, iw⟩ : ICoord)).length ≤ 3 := by
    intro iy iz iu iv iw
    rw [List.length_map]
    exact axisWindow_length_le hx wr.x
  have L2 : ∀ (iz iu iv iw : Int),
      ((axisWindow c.y d.y wr.y).flatMap fun iy =>
        (axisWindow c.x d.x wr.x).map fun ix =>
        (⟨ix, iy, iz, iu, iv, iw⟩ : ICoord)).length ≤ 9 := by
    intro iz iu iv iw
    refine le_trans (length_flatMap_le _ _ 3 fun a _ => L1 a iz iu iv iw) ?_
    have := axisWindow_length_le hy wr.y
    omega
  have L3 : ∀ (iu iv iw : Int),
      ((axisWindow c.z d.z wr.z).flatMap fun iz =>
        (axisWindow c.y d.y wr.y).flatMap fun iy =>
        (axisWindow c.x d.x wr.x).map fun ix =>
        (⟨ix, iy, iz, iu, iv, iw⟩ : ICoord)).length ≤ 27 := by
    intro iu iv iw
    refine le_trans (length_flatMap_le _ _ 9 fun a _ => L2 a iu iv iw) ?_
    have := axisWindow_length_le hz wr.z
    omega
  have L4 : ∀ (iv iw : Int),
      ((axisWindow c.u d.u wr.u).flatMap fun iu =>
        (axisWindow c.z d.z wr.z).flatMap fun iz =>
        (axisWindow c.y d.y wr.y).flatMap fun iy =>
        (axisWindow c.x d.x wr.x).map fun ix =>
        (⟨ix, iy, iz, iu, iv, iw⟩ : ICoord)).length ≤ 81 := by
    intro iv iw
    refine le_trans (length_flatMap_le _ _ 27 fun a _ => L3 a iv iw) ?_
    have := axisWindow_length_le hu wr.u
    omega
  have L5 : ∀ (iw : Int),
      ((axisWindow c.v d.v wr.v).flatMap fun iv =>
        (axisWindow c.u d.u wr.u).flatMap fun iu =>
        (axisWindow c.z d.z wr.z).flatMap fun iz =>
        (axisWindow c.y d.y wr.y).flatMap fun iy =>
        (axisWindow c.x d.x wr.x).map fun ix =>
        (⟨ix, iy, iz, iu, iv, iw⟩ : ICoord)).length ≤ 243 := by
    intro iw
    refine le_trans (length_flatMap_le _ _ 81 fun a _ => L4 a iw) ?_
    have := axisWindow_length_le hv wr.v
    omega
  refine le_trans (length_flatMap_le _ _ 243 fun a _ => L5 a) ?_
  have := axisWindow_length_le hw wr.w
  omega

theorem neighborList_length_le {d : Dims} {wr : Wraps} {c : Coord}
    (hc : inBounds d c) : (neighborList d wr c).length ≤ 729 := by
  rw [neighborList, List.length_map]
  exact le_trans (List.length_filter_le _ _) (windowTuples_length_le hc)

theorem adjustDelta_zero (v : CellState) : adjustDelta 0 v = v := by
  cases v <;> simp [adjustDelta]

theorem adjustDelta_comp (s s' : Int) (v : CellState) :
    adjustDelta s (adjustDelta s' v) = adjustDelta (s' + s) v := by
  cases v <;> simp [adjustDelta] <;> ring

theorem updCell_self (f : Coord → CellState) (c : Coord) (v : CellState) :
    updCell f c v c = v := by
  simp [updCell]

theorem updCell_other (f : Coord → CellState) (c : Coord) (v : CellState)
    {e : Coord} (h : e ≠ c) : updCell f c v e = f e := by
  simp [updCell, h]

theorem applyMarkDeltas_apply (s : Int) (l : List Coord) (f : Coord → CellState)
    (e : Coord) : applyMarkDeltas s f l e = adjustDelta (s * l.count e) (f e) := by
  induction l generalizing f with
  | nil => simp [applyMarkDeltas, adjustDelta_zero]
  | cons p l ih =>
      rw [applyMarkDeltas, List.foldl_cons]
      have step : (List.foldl (fun f p => updCell f p (adjustDelta s (f p)))
          (updCell f p (adjustDelta s (f p))) l) e =
          adjustDelta (s * l.count e) (updCell f p (adjustDelta s (f p)) e) :=
        ih (updCell f p (adjustDelta s (f p)))
      rw [step]
      by_cases hep : e = p
      · subst hep
        have hcn : List.count e (e :: l) = List.count e l + 1 := by
          rw [List.count_cons]; simp
        rw [updCell_self, adjustDelta_comp, hcn]
        congr 1
        push_cast
        ring
      · have hcn : List.count e (p :: l) = List.count e l := by
          rw [List.count_cons]; simp [Ne.symm hep]
        rw [updCell_other _ _ _ hep, hcn]

theorem dec64_inc64 {m : Nat} (h : m < u64Mod) : dec64 (inc64 m) = m := by
  simp only [dec64, inc64, u64Mod] at *
  omega

theorem inc64_dec64 {m : Nat} (h : m < u64Mod) : inc64 (dec64 m) = m := by
  simp only [dec64, inc64, u64Mod] at *
  omega

theorem mark_at_state (b : GameBoard) (c : Coord) : (mark_at b c).state = b.state := by
  rw [mark_at]
  split <;> split <;> rfl

theorem applyMarkDeltas_center (s : Int) (b : GameBoard) (c : Coord)
    (hc : inBounds b.size c) :
    applyMarkDeltas s b.board (neighborList b.size b.wrap c) c = b.board c := by
  rw [applyMarkDeltas_apply, count_self_neighborList hc]
  simp [adjustDelta_zero]

theorem mark_at_eq_umine {b : GameBoard} {c : Coord} {g : Nat}
    (hc : inBounds b.size c) (hb : b.board c = .UndiscoveredMine g) :
    mark_at b c =
      { b with
        board := updCell (applyMarkDeltas (-1) b.board (neighborList b.size b.wrap c))
          c (.MarkedMine g),
        marked_as_mine := inc64 b.marked_as_mine } := by
  have h1 : applyMarkDeltas (-1) b.board (neighborList b.size b.wrap c) c
      = CellState.UndiscoveredMine g := by
    rw [applyMarkDeltas_center _ _ _ hc, hb]
  rw [mark_at]
  simp only [hb, h1]

theorem mark_at_eq_mmine {b : GameBoard} {c : Coord} {g : Nat}
    (hc : inBounds b.size c) (hb : b.board c = .MarkedMine g) :
    mark_at b c =
      { b with
        board := updCell (applyMarkDeltas 1 b.board (neighborList b.size b.wrap c))
          c (.UndiscoveredMine g),
        marked_as_mine := dec64 b.marked_as_mine } := by
  have h1 : applyMarkDeltas 1 b.board (neighborList b.size b.wrap c) c
      = CellState.MarkedMine g := by
    rw [applyMarkDeltas_center _ _ _ hc, hb]
  rw [mark_at]
  simp only [hb, h1]

theorem mark_at_eq_uempty {b : GameBoard} {c : Coord} {cc : Nat} {dd : Int} {g : Nat}
    (hc : inBounds b.size c) (hb : b.board c = .UndiscoveredEmpty cc dd g) :
    mark_at b c =
      { b with
        board := updCell (applyMarkDeltas (-1) b.board (neighborList b.size b.wrap c))
          c (.MarkedEmpty cc dd g),
        marked_as_mine := inc64 b.marked_as_mine } := by
  have h1 : applyMarkDeltas (-1) b.board (neighborList b.size b.wrap c) c
      = CellState.UndiscoveredEmpty cc dd g := by
    rw [applyMarkDeltas_center _ _ _ hc, hb]
  rw [mark_at]
  simp only [hb, h1]

theorem mark_at_eq_mempty {b : GameBoard} {c : Coord} {cc : Nat} {dd : Int} {g : Nat}
    (hc : inBounds b.size c) (hb : b.board c = .MarkedEmpty cc dd g) :
    mark_at b c =
      { b with
        board := updCell (applyMarkDeltas 1 b.board (neighborList b.size b.wrap c))
          c (.UndiscoveredEmpty cc dd g),
        marked_as_mine := dec64 b.marked_as_mine } := by
  have h1 : applyMarkDeltas 1 b.board (neighborList b.size b.wrap c) c
      = CellState.MarkedEmpty cc dd g := by
    rw [applyMarkDeltas_center _ _ _ hc, hb]
  rw [mark_at]
  simp only [hb, h1]

theorem mark_at_eq_exploded {b : GameBoard} {c : Coord} {g : Nat}
    (hb : b.board c = .ExplodedMine g) : mark_at b c = b := by
  rw [mark_at]
  simp only [hb]

theorem mark_at_eq_discovered {b : GameBoard} {c : Coord} {cc : Nat} {dd : Int} {g : Nat}
    (hb : b.board c = .DiscoveredEmpty cc dd g) : mark_at b c = b := by
  rw [mark_at]
  simp only [hb]

theorem double_board (s s' : Int) (hss : s' + s = 0) (f : Coord → CellState)
    (n : List Coord) (c : Coord) (v1 v2 : CellState) (e : Coord) (hec : e ≠ c) :
    updCell (applyMarkDeltas s (updCell (applyMarkDeltas s' f n) c v1) n) c v2 e
      = f e := by
  rw [updCell_other _ _ _ hec, applyMarkDeltas_apply, updCell_other _ _ _ hec,
    applyMarkDeltas_apply, adjustDelta_comp]
  have h0 : s' * ((n.count e : Int)) + s * ((n.count e : Int)) = 0 := by
    have hh : s' * ((n.count e : Int)) + s * ((n.count e : Int))
        = (s' + s) * ((n.count e : Int)) := by ring
    rw [hh, hss, zero_mul]
  rw [h0, adjustDelta_zero]

theorem mark_mark_id (b : GameBoard) (c : Coord) (hc : inBounds b.size c)
    (hm : b.marked_as_mine < u64Mod) :
    (∀ e, (mark_at (mark_at b c) c).board e = b.board e) ∧
    (mark_at (mark_at b c) c).marked_as_mine = b.marked_as_mine := by
  cases hv : b.board c with
  | UndiscoveredMine g =>
      have e1 := mark_at_eq_umine hc hv
      have hb1 : (mark_at b c).board c = CellState.MarkedMine g := by
        rw [e1]; exact updCell_self _ _ _
      have hc1 : inBounds (mark_at b c).size c := by rw [e1]; exact hc
      have e2 := mark_at_eq_mmine hc1 hb1
      constructor
      · intro e
        rw [e2, e1]
        dsimp only
        by_cases hec : e = c
        · subst hec
          rw [updCell_self]
          exact hv.symm
        · exact double_board 1 (-1) (by ring) b.board _ c _ _ e hec
      · rw [e2, e1]
        dsimp only
        exact dec64_inc64 hm
  | MarkedMine g =>
      have e1 := mark_at_eq_mmine hc hv
      have hb1 : (mark_at b c).board c = CellState.UndiscoveredMine g := by
        rw [e1]; exact updCell_self _ _ _
      have hc1 : inBounds (mark_at b c).size c := by rw [e1]; exact hc
      have e2 := mark_at_eq_umine hc1 hb1
      constructor
      · intro e
        rw [e2, e1]
        dsimp only
        by_cases hec : e = c
        · subst hec
          rw [updCell_self]
          exact hv.symm
        · exact double_board (-1) 1 (by ring) b.board _ c _ _ e hec
      · rw [e2, e1]
        dsimp only
        exact inc64_dec64 hm
  | ExplodedMine g =>
      have e1 := mark_at_eq_exploded hv
      rw [e1, e1]
      exact ⟨fun _ => rfl, rfl⟩
  | UndiscoveredEmpty cc dd g =>
      have e1 := mark_at_eq_uempty hc hv
      have hb1 : (mark_at b c).board c = CellState.MarkedEmpty cc dd g := by
        rw [e1]; exact updCell_self _ _ _
      have hc1 : inBounds (mark_at b c).size c := by rw [e1]; exact hc
      have e2 := mark_at_eq_mempty hc1 hb1
      constructor
      · intro e
        rw [e2, e1]
        dsimp only
        by_cases hec : e = c
        · subst hec
          rw [updCell_self]
          exact hv.symm
        · exact double_board 1 (-1) (by ring) b.board _ c _ _ e hec
      · rw [e2, e1]
        dsimp only
        exact dec64_inc64 hm
  | MarkedEmpty cc dd g =>
      have e1 := mark_at_eq_mempty hc hv
      have hb1 : (mark_at b c).board c = CellState.UndiscoveredEmpty cc dd g := by
        rw [e1]; exact updCell_self _ _ _
      have hc1 : inBounds (mark_at b c).size c := by rw [e1]; exact hc
      have e2 := mark_at_eq_uempty hc1 hb1
      constructor
      · intro e
        rw [e2, e1]
        dsimp only
        by_cases hec : e = c
        · subst hec
          rw [updCell_self]
          exact hv.symm
        · exact double_board (-1) 1 (by ring) b.board _ c _ _ e hec
      · rw [e2, e1]
        dsimp only
        exact inc64_dec64 hm
  | DiscoveredEmpty cc dd g =>
      have e1 := mark_at_eq_discovered hv
      rw [e1, e1]
      exact ⟨fun _ => rfl, rfl⟩

theorem mark_at_size (b : GameBoard) (c : Coord) : (mark_at b c).size = b.size := by
  rw [mark_at]; split <;> split <;> rfl

theorem mark_at_wrap (b : GameBoard) (c : Coord) : (mark_at b c).wrap = b.wrap := by
  rw [mark_at]; split <;> split <;> rfl

theorem mark_at_seed (b : GameBoard) (c : Coord) : (mark_at b c).seed = b.seed := by
  rw [mark_at]; split <;> split <;> rfl

theorem mark_at_mine_count (b : GameBoard) (c : Coord) :
    (mark_at b c).mine_count = b.mine_count := by
  rw [mark_at]; split <;> split <;> rfl

theorem mark_at_undisc (b : GameBoard) (c : Coord) :
    (mark_at b c).undiscoved_empty_fields = b.undiscoved_empty_fields := by
  rw [mark_at]; split <;> split <;> rfl

theorem mark_at_total (b : GameBoard) (c : Coord) :
    (mark_at b c).total_fields = b.total_fields := by
  rw [mark_at]; split <;> split <;> rfl

theorem highlight_at_state (b : GameBoard) (c : Coord) (grp : Nat) (en : Bool) :
    (highlight_at b c grp en).state = b.state := rfl

theorem highlight_at_size (b : GameBoard) (c : Coord) (grp : Nat) (en : Bool) :
    (highlight_at b c grp en).size = b.size := rfl

theorem highlight_at_wrap (b : GameBoard) (c : Coord) (grp : Nat) (en : Bool) :
    (highlight_at b c grp en).wrap = b.wrap := rfl

theorem highlight_at_marked (b : GameBoard) (c : Coord) (grp : Nat) (en : Bool) :
    (highlight_at b c grp en).marked_as_mine = b.marked_as_mine := rfl

theorem highlight_at_undisc (b : GameBoard) (c : Coord) (grp : Nat) (en : Bool) :
    (highlight_at b c grp en).undiscoved_empty_fields = b.undiscoved_empty_fields := rfl

theorem highlight_at_total (b : GameBoard) (c : Coord) (grp : Nat) (en : Bool) :
    (highlight_at b c grp en).total_fields = b.total_fields := rfl

theorem highlight_at_shape (b : GameBoard) (c : Coord) (grp : Nat) (en : Bool)
    (e : Coord) :
    emptyData ((highlight_at b c grp en).board e) = emptyData (b.board e) ∧
    isMarkedCell ((highlight_at b c grp en).board e) = isMarkedCell (b.board e) ∧
    isMineCell ((highlight_at b c grp en).board e) = isMineCell (b.board e) ∧
    isUZeroCell ((highlight_at b c grp en).board e) = isUZeroCell (b.board e) := by
  rw [highlight_at]
  dsimp only
  by_cases hec : e = c
  · subst hec
    rw [updCell_self]
    cases hv : b.board e <;>
      simp [hv, emptyData, isMarkedCell, isMineCell, isUZeroCell] <;>
      (rename_i cc dd gg; cases cc <;> rfl)
  · rw [updCell_other _ _ _ hec]
    exact ⟨rfl, rfl, rfl, rfl⟩

theorem probeStep_size (b : GameBoard) (p : Coord) (pm : Bool) :
    (probeStep b p pm).1.size = b.size := by
  rw [probeStep]
  split <;> first
    | rfl
    | (split <;> simp [mark_at_size])

theorem probeStep_wrap (b : GameBoard) (p : Coord) (pm : Bool) :
    (probeStep b p pm).1.wrap = b.wrap := by
  rw [probeStep]
  split <;> first
    | rfl
    | (split <;> simp [mark_at_wrap])

theorem probeStep_total (b : GameBoard) (p : Coord) (pm : Bool) :
    (probeStep b p pm).1.total_fields = b.total_fields := by
  rw [probeStep]
  split <;> first
    | rfl
    | (split <;> simp [mark_at_total])

theorem probeStep_loss_iff (b : GameBoard) (p : Coord) (pm : Bool) :
    ((probeStep b p pm).1.state = GameState.Loss ↔
      (b.state = GameState.Loss ∨
        (match b.board p with
         | CellState.UndiscoveredMine _ => true
         | CellState.MarkedMine _ => pm
         | _ => false) = true)) := by
  rw [probeStep]
  cases hv : b.board p with
  | UndiscoveredMine g => simp
  | MarkedMine g =>
      by_cases hpm : pm = true
      · subst hpm; simp
      · have hpm' : pm = false := by
          cases pm
          · rfl
          · exact absurd rfl hpm
        subst hpm'
        simp
  | ExplodedMine g => simp
  | UndiscoveredEmpty cc dd g => simp
  | MarkedEmpty cc dd g =>
      by_cases hpm : pm = true
      · subst hpm
        simp [mark_at_state]
      · have hpm' : pm = false := by
          cases pm
          · rfl
          · exact absurd rfl hpm
        subst hpm'
        simp
  | DiscoveredEmpty cc dd g => simp

theorem probeAux_loss_iff (pm : Bool) : ∀ (fuel : Nat) (b : GameBoard) (q : List Coord),
    ((probeAux pm fuel b q).1.state = GameState.Loss ↔
      (b.state = GameState.Loss ∨ probeAuxHit pm fuel b q = true)) := by
  intro fuel
  induction fuel with
  | zero =>
      intro b q
      cases q <;> simp [probeAux, probeAuxHit]
  | succ fuel ih =>
      intro b q
      cases q with
      | nil => simp [probeAux, probeAuxHit]
      | cons p rest =>
          rw [probeAux, probeAuxHit]
          rw [ih, probeStep_loss_iff]
          simp only [Bool.or_eq_true]
          tauto

theorem probeStep_state_or (b : GameBoard) (p : Coord) (pm : Bool) :
    (probeStep b p pm).1.state = b.state ∨
      (probeStep b p pm).1.state = GameState.Loss := by
  rw [probeStep]
  cases hv : b.board p with
  | UndiscoveredMine g => right; rfl
  | MarkedMine g =>
      cases pm
      · left; rfl
      · right; rfl
  | ExplodedMine g => left; rfl
  | UndiscoveredEmpty cc dd g => left; rfl
  | MarkedEmpty cc dd g =>
      cases pm
      · left; rfl
      · left; simp [mark_at_state]
  | DiscoveredEmpty cc dd g => left; rfl

theorem probeAux_state_or (pm : Bool) : ∀ (fuel : Nat) (b : GameBoard) (q : List Coord),
    (probeAux pm fuel b q).1.state = b.state ∨
      (probeAux pm fuel b q).1.state = GameState.Loss := by
  intro fuel
  induction fuel with
  | zero =>
      intro b q
      cases q <;> simp [probeAux]
  | succ fuel ih =>
      intro b q
      cases q with
      | nil => simp [probeAux]
      | cons p rest =>
          rw [probeAux]
          rcases ih (probeStep b p pm).1 (rest ++ (probeStep b p pm).2) with h | h
          · rcases probeStep_state_or b p pm with h2 | h2
            · left; rw [h, h2]
            · right; rw [h, h2]
          · right; exact h

theorem probe_at_eq_ite (b : GameBoard) (c : Coord) (pm : Bool) :
    probe_at b c pm =
      if (probeRun b c pm).1.state ≠ GameState.Loss ∧
          (probeRun b c pm).1.undiscoved_empty_fields = 0
      then { (probeRun b c pm).1 with state := GameState.Victory }
      else (probeRun b c pm).1 := rfl

theorem probeRun_state_or (b : GameBoard) (c : Coord) (pm : Bool) :
    (probeRun b c pm).1.state = b.state ∨
      (probeRun b c pm).1.state = GameState.Loss :=
  probeAux_state_or pm (probeFuel b) b [c]

theorem probe_at_state_cases (b : GameBoard) (c : Coord) (pm : Bool) :
    (probe_at b c pm).state = b.state ∨
    ((probe_at b c pm).state = GameState.Loss ∧ b.state ≠ GameState.Loss) ∨
    ((probe_at b c pm).state = GameState.Victory ∧ b.state = GameState.Running) := by
  rw [probe_at_eq_ite]
  split_ifs with hcond
  · have hr : (probeRun b c pm).1.state = b.state := by
      rcases probeRun_state_or b c pm with h | h
      · exact h
      · exact absurd h hcond.1
    cases hb : b.state with
    | Running => right; right; exact ⟨rfl, rfl⟩
    | Victory =>
        left
        rfl
    | Loss =>
        rw [hb] at hr
        exact absurd hr hcond.1
  · rcases probeRun_state_or b c pm with h | h
    · left; exact h
    · by_cases hb : b.state = GameState.Loss
      · left; rw [h, hb]
      · right; left; exact ⟨h, hb⟩

theorem probe_at_loss_stable (b : GameBoard) (c : Coord) (pm : Bool)
    (h : b.state = GameState.Loss) : (probe_at b c pm).state = GameState.Loss := by
  have hr : (probeRun b c pm).1.state = GameState.Loss := by
    rcases probeRun_state_or b c pm with h2 | h2
    · rw [h2, h]
    · exact h2
  rw [probe_at_eq_ite]
  rw [if_neg]
  · exact hr
  · intro hcond
    exact hcond.1 hr

theorem probe_at_victory_iff (b : GameBoard) (c : Coord) (pm : Bool)
    (hb : b.state = GameState.Running) :
    ((probe_at b c pm).state = GameState.Victory ↔
      ((probeRun b c pm).1.undiscoved_empty_fields = 0 ∧
        (probeRun b c pm).1.state ≠ GameState.Loss)) := by
  rw [probe_at_eq_ite]
  split_ifs with hcond
  · constructor
    · intro _
      exact ⟨hcond.2, hcond.1⟩
    · intro _
      rfl
  · constructor
    · intro hv
      exfalso
      rcases probeRun_state_or b c pm with h2 | h2
      · rw [hb] at h2
        exact absurd (h2.symm.trans hv) (by decide)
      · exact absurd (h2.symm.trans hv) (by decide)
    · intro hcc
      exact absurd ⟨hcc.2, hcc.1⟩ hcond

theorem probe_at_loss_iff_hit (b : GameBoard) (c : Coord) (pm : Bool)
    (hb : b.state = GameState.Running) :
    ((probe_at b c pm).state = GameState.Loss ↔ probeHit b c pm = true) := by
  have hiff := probeAux_loss_iff pm (probeFuel b) b [c]
  rw [hb] at hiff
  have hne : GameState.Running ≠ GameState.Loss := by decide
  simp only [hne, false_or] at hiff
  rw [probe_at_eq_ite]
  split_ifs with hcond
  · constructor
    · intro hv
      cases hv
    · intro hh
      exact absurd (hiff.mpr hh) hcond.1
  · exact hiff

theorem bwiList_eq_spec (f t lo hi : Int) (w : Bool) (hlh : lo ≤ hi)
    (hrun : max f lo ≤ min t hi) :
    bwiList f t lo hi w = specClaimedBWI f t lo hi w := by
  rw [bwiList, specClaimedBWI]
  have h1 : (if t > hi ∧ w then ([lo] : List Int) else []) =
      (if w ∧ hi < t then [lo] else []) := by
    split_ifs <;> tauto
  have h3 : (if f < lo ∧ w then ([hi] : List Int) else []) =
      (if w ∧ f < lo then [hi] else []) := by
    split_ifs <;> tauto
  have hmax : (if f > lo then f else lo) = max f lo := by
    split_ifs <;> omega
  have hmin : (if t < hi then t else hi) = min t hi := by
    split_ifs <;> omega
  rw [h1, h3, hmax, hmin, midRun_eq_intRange _ _ hrun]

/-- C6 (amended): for lowest ≤ highest and a window whose clipped run is
nonempty (max(from, lowest) ≤ min(to, highest) — which holds in every use the
engine makes, where the window is idx−1..idx+1 around an in-bounds idx), the
BWI sequence is: lowest first when wrap is true and the original `to` exceeds
highest, then the ascending run max(from, lowest)..min(to, highest), then
highest last when wrap is true and the original `from` is below lowest; in
particular with wrap = false and window idx−1..idx+1 over bounds 0..n−1 it is
exactly the ascending intersection of [idx−1, idx+1] with [0, n−1].  The
amendment adds the nonempty-overlap hypothesis: when the clipped run is empty
the iterator still emits its starting point once, so the unrestricted claim
fails (see the counterexample). -/
theorem claim6_bwi_sequence :
    (∀ (f t lo hi : Int) (w : Bool), lo ≤ hi → max f lo ≤ min t hi →
      bwiList f t lo hi w = specClaimedBWI f t lo hi w) ∧
    (∀ idx n : Int, 0 ≤ idx → idx ≤ n - 1 →
      bwiList (idx - 1) (idx + 1) 0 (n - 1) false =
        intRange (max (idx - 1) 0) (min (idx + 1) (n - 1))) := by
  constructor
  · intro f t lo hi w hlh hrun
    exact bwiList_eq_spec f t lo hi w hlh hrun
  · intro idx n h0 h1
    have hs := bwiList_eq_spec (idx - 1) (idx + 1) 0 (n - 1) false (by omega) (by omega)
    rw [hs, specClaimedBWI]
    simp

/-- C6 (counterexample): with an empty clipped window (from = 5, to = 2,
bounds 0..10, no wrap) the iterator emits its starting value 5 once, while
the claimed sequence is empty. -/
theorem claim6_counterexample :
    bwiList 5 2 0 10 false ≠ specClaimedBWI 5 2 0 10 false := by
  decide

theorem claim6_witness :
    ((0 : Int) ≤ 10 ∧ max (3 - 1) 0 ≤ min (3 + 1) 10 ∧
      bwiList (3 - 1) (3 + 1) 0 10 true = specClaimedBWI (3 - 1) (3 + 1) 0 10 true) ∧
    ((0 : Int) ≤ (4 : Int) ∧ (4 : Int) ≤ 5 - 1 ∧
      bwiList (4 - 1) (4 + 1) 0 (5 - 1) false =
        intRange (max (4 - 1) 0) (min (4 + 1) (5 - 1))) :=
  ⟨⟨by decide, by decide,
      claim6_bwi_sequence.1 (3 - 1) (3 + 1) 0 10 true (by decide) (by decide)⟩,
   ⟨by decide, by decide, claim6_bwi_sequence.2 4 5 (by decide) (by decide)⟩⟩

/-- C2: for every board and in-bounds coordinate (with the marked counter a
valid u64 value), calling mark_at twice at that coordinate is the identity:
every cell — in particular the target cell's value and every neighbor's
delta — and the marked-count counter (and the untouched state and the other
counters) are restored bit for bit. -/
theorem claim2_mark_involution (b : GameBoard) (c : Coord)
    (hc : inBounds b.size c) (hm : b.marked_as_mine < u64Mod) :
    (∀ e, (mark_at (mark_at b c) c).board e = b.board e) ∧
    (mark_at (mark_at b c) c).marked_as_mine = b.marked_as_mine ∧
    (mark_at (mark_at b c) c).state = b.state ∧
    (mark_at (mark_at b c) c).undiscoved_empty_fields = b.undiscoved_empty_fields ∧
    (mark_at (mark_at b c) c).total_fields = b.total_fields := by
  have h := mark_mark_id b c hc hm
  refine ⟨h.1, h.2, ?_, ?_, ?_⟩
  · rw [mark_at_state, mark_at_state]
  · rw [mark_at_undisc, mark_at_undisc]
  · rw [mark_at_total, mark_at_total]

theorem claim2_witness :
    inBounds exStaticBoard.size exC0 ∧ exStaticBoard.marked_as_mine < u64Mod ∧
    ((∀ e, (mark_at (mark_at exStaticBoard exC0) exC0).board e = exStaticBoard.board e) ∧
     (mark_at (mark_at exStaticBoard exC0) exC0).marked_as_mine
        = exStaticBoard.marked_as_mine ∧
     (mark_at (mark_at exStaticBoard exC0) exC0).state = exStaticBoard.state ∧
     (mark_at (mark_at exStaticBoard exC0) exC0).undiscoved_empty_fields
        = exStaticBoard.undiscoved_empty_fields ∧
     (mark_at (mark_at exStaticBoard exC0) exC0).total_fields
        = exStaticBoard.total_fields) :=
  ⟨by decide, by decide, claim2_mark_involution exStaticBoard exC0 (by decide) (by decide)⟩

/-- C10: mark_at never changes the game state, the undiscovered-empty counter
or the total-cell counter; it changes the marked-count counter by exactly +1
when the target is Undiscovered Mine or Undiscovered Empty, by exactly −1 when
it is Marked Mine or Marked Empty, and leaves the whole board unchanged when
it is Exploded Mine or Discovered Empty.  The counter hypotheses state that
the u64 counter is within range (1 ≤ counter when a marked cell is unmarked),
which holds on every board the engine produces. -/
theorem claim10_mark_frame (b : GameBoard) (c : Coord) (hc : inBounds b.size c)
    (hlow : isMarkedCell (b.board c) = true → 1 ≤ b.marked_as_mine)
    (hhigh : b.marked_as_mine + 1 < u64Mod) :
    (mark_at b c).state = b.state ∧
    (mark_at b c).undiscoved_empty_fields = b.undiscoved_empty_fields ∧
    (mark_at b c).total_fields = b.total_fields ∧
    ((mark_at b c).marked_as_mine : Int)
      = (b.marked_as_mine : Int) + markCounterDelta (b.board c) ∧
    (markCounterDelta (b.board c) = 0 → mark_at b c = b) := by
  refine ⟨mark_at_state b c, mark_at_undisc b c, mark_at_total b c, ?_, ?_⟩
  · cases hv : b.board c with
    | UndiscoveredMine g =>
        rw [mark_at_eq_umine hc hv]
        simp only [markCounterDelta, inc64, u64Mod] at *
        omega
    | MarkedMine g =>
        have h1 := hlow (by rw [hv]; rfl)
        rw [mark_at_eq_mmine hc hv]
        simp only [markCounterDelta, dec64, u64Mod] at *
        omega
    | ExplodedMine g =>
        rw [mark_at_eq_exploded hv]
        simp [markCounterDelta]
    | UndiscoveredEmpty cc dd g =>
        rw [mark_at_eq_uempty hc hv]
        simp only [markCounterDelta, inc64, u64Mod] at *
        omega
    | MarkedEmpty cc dd g =>
        have h1 := hlow (by rw [hv]; rfl)
        rw [mark_at_eq_mempty hc hv]
        simp only [markCounterDelta, dec64, u64Mod] at *
        omega
    | DiscoveredEmpty cc dd g =>
        rw [mark_at_eq_discovered hv]
        simp [markCounterDelta]
  · intro h0
    cases hv : b.board c with
    | UndiscoveredMine g => rw [hv] at h0; simp [markCounterDelta] at h0
    | MarkedMine g => rw [hv] at h0; simp [markCounterDelta] at h0
    | ExplodedMine g => exact mark_at_eq_exploded hv
    | UndiscoveredEmpty cc dd g => rw [hv] at h0; simp [markCounterDelta] at h0
    | MarkedEmpty cc dd g => rw [hv] at h0; simp [markCounterDelta] at h0
    | DiscoveredEmpty cc dd g => exact mark_at_eq_discovered hv

theorem claim10_witness :
    inBounds exStaticBoard.size exC1 ∧
    (isMarkedCell (exStaticBoard.board exC1) = true → 1 ≤ exStaticBoard.marked_as_mine) ∧
    exStaticBoard.marked_as_mine + 1 < u64Mod ∧
    ((mark_at exStaticBoard exC1).state = exStaticBoard.state ∧
     (mark_at exStaticBoard exC1).undiscoved_empty_fields
        = exStaticBoard.undiscoved_empty_fields ∧
     (mark_at exStaticBoard exC1).total_fields = exStaticBoard.total_fields ∧
     ((mark_at exStaticBoard exC1).marked_as_mine : Int)
        = (exStaticBoard.marked_as_mine : Int)
            + markCounterDelta (exStaticBoard.board exC1) ∧
     (markCounterDelta (exStaticBoard.board exC1) = 0 →
        mark_at exStaticBoard exC1 = exStaticBoard)) :=
  ⟨by decide, by decide, by decide,
   claim10_mark_frame exStaticBoard exC1 (by decide) (by decide) (by decide)⟩

/-- C8: two boards constructed with identical size, wrap, mine_count and an
explicitly supplied seed produce bit-identical cell grids and report the same
resolved seed, whatever the non-deterministic source would have produced on
either run (the source is consulted only when no seed is supplied). -/
theorem claim8_seeded_determinism (d : Dims) (wr : Wraps) (mc : Nat)
    (initial : Option Coord) (seed : Nat) (d1 d2 : Nat → Nat) :
    (GameBoard.new d wr mc initial (some seed) d1).seed
      = (GameBoard.new d wr mc initial (some seed) d2).seed ∧
    ∀ e, (GameBoard.new d wr mc initial (some seed) d1).board e
      = (GameBoard.new d wr mc initial (some seed) d2).board e :=
  ⟨rfl, fun _ => rfl⟩

theorem isMarkedCell_adjustDelta (s : Int) (v : CellState) :
    isMarkedCell (adjustDelta s v) = isMarkedCell v := by
  cases v <;> rfl

theorem isMineCell_adjustDelta (s : Int) (v : CellState) :
    isMineCell (adjustDelta s v) = isMineCell v := by
  cases v <;> rfl

theorem ccOf_adjustDelta (s : Int) (v : CellState) :
    ccOf (adjustDelta s v) = ccOf v := by
  cases v <;> rfl

theorem emptyData_adjustDelta (s : Int) (v : CellState) :
    emptyData (adjustDelta s v) =
      Option.map (fun pr => (pr.1, pr.2 + s)) (emptyData v) := by
  cases v <;> rfl

theorem isUZeroCell_adjustDelta (s : Int) (v : CellState) :
    isUZeroCell (adjustDelta s v) = isUZeroCell v := by
  cases v with
  | UndiscoveredEmpty cc dd g => cases cc <;> rfl
  | UndiscoveredMine g => rfl
  | MarkedMine g => rfl
  | ExplodedMine g => rfl
  | MarkedEmpty cc dd g => rfl
  | DiscoveredEmpty cc dd g => rfl

theorem countP_updCell_eq (l : List Coord) (f : Coord → CellState) (t : Coord)
    (v : CellState) (P : CellState → Bool) (h : P v = P (f t)) :
    (l.countP fun p => P (updCell f t v p)) = l.countP fun p => P (f p) := by
  apply countP_congr_mem
  intro a _
  by_cases hat : a = t
  · subst hat
    rw [updCell_self, h]
  · rw [updCell_other _ _ _ hat]

theorem countP_updCell_pos (l : List Coord) (f : Coord → CellState) (t : Coord)
    (v : CellState) (P : CellState → Bool) (hv : P v = true) (ht : P (f t) = false) :
    (l.countP fun p => P (updCell f t v p)) =
      (l.countP fun p => P (f p)) + l.count t := by
  induction l with
  | nil => simp
  | cons a l ih =>
      rw [List.countP_cons, List.countP_cons, List.count_cons, ih]
      by_cases hat : a = t
      · subst hat
        rw [updCell_self, hv, ht]
        simp
        omega
      · rw [updCell_other _ _ _ hat]
        have hba : (a == t) = false := by simp [hat]
        rw [hba]
        simp
        omega

theorem countP_updCell_neg (l : List Coord) (f : Coord → CellState) (t : Coord)
    (v : CellState) (P : CellState → Bool) (hv : P v = false) (ht : P (f t) = true) :
    (l.countP fun p => P (updCell f t v p)) + l.count t =
      l.countP fun p => P (f p) := by
  induction l with
  | nil => simp
  | cons a l ih =>
      rw [List.countP_cons, List.countP_cons, List.count_cons, ← ih]
      by_cases hat : a = t
      · subst hat
        rw [updCell_self, hv, ht]
        simp
        omega
      · rw [updCell_other _ _ _ hat]
        have hba : (a == t) = false := by simp [hat]
        rw [hba]
        simp
        omega

theorem isMarkedCell_applyMarkDeltas (s : Int) (f : Coord → CellState)
    (l : List Coord) (p : Coord) :
    isMarkedCell (applyMarkDeltas s f l p) = isMarkedCell (f p) := by
  rw [applyMarkDeltas_apply, isMarkedCell_adjustDelta]

theorem DeltaInv_updflip (b : GameBoard) (c : Coord) (hc : inBounds b.size c)
    (h : DeltaInv b) (s : Int) (vflip : CellState)
    (hpay : emptyData vflip = emptyData (b.board c))
    (hflip : (isMarkedCell vflip = true ∧ isMarkedCell (b.board c) = false ∧ s = -1) ∨
             (isMarkedCell vflip = false ∧ isMarkedCell (b.board c) = true ∧ s = 1)) :
    DeltaInv { b with
      board := updCell (applyMarkDeltas s b.board (neighborList b.size b.wrap c))
        c vflip } := by
  intro e he cc dd hdata
  have he' : inBounds b.size e := he
  have hamdP : ∀ p, isMarkedCell
      (applyMarkDeltas s b.board (neighborList b.size b.wrap c) p)
      = isMarkedCell (b.board p) := fun p =>
    isMarkedCell_applyMarkDeltas s b.board (neighborList b.size b.wrap c) p
  have hdata' : emptyData (updCell
      (applyMarkDeltas s b.board (neighborList b.size b.wrap c)) c vflip e)
      = some (cc, dd) := hdata
  have hgoal : dd = (cc : Int) -
      (((neighborList b.size b.wrap e).countP fun p => isMarkedCell (updCell
        (applyMarkDeltas s b.board (neighborList b.size b.wrap c)) c vflip p)) : Int)
      → dd = (cc : Int) -
        (markedNbrCount ({ b with
          board := updCell (applyMarkDeltas s b.board (neighborList b.size b.wrap c))
            c vflip }).size ({ b with
          board := updCell (applyMarkDeltas s b.board (neighborList b.size b.wrap c))
            c vflip }).wrap ({ b with
          board := updCell (applyMarkDeltas s b.board (neighborList b.size b.wrap c))
            c vflip }).board e : Int) := fun hh => hh
  apply hgoal
  rcases hflip with ⟨hv1, hv0, hs⟩ | ⟨hv1, hv0, hs⟩
  · -- marking: every empty neighbor occurrence of c lost 1 from its delta and
    -- gained the newly marked c once per occurrence in its own neighbor list
    subst hs
    have hf1c : isMarkedCell (applyMarkDeltas (-1) b.board
        (neighborList b.size b.wrap c) c) = false := (hamdP c).trans hv0
    have hcount : ((neighborList b.size b.wrap e).countP fun p => isMarkedCell
        (updCell (applyMarkDeltas (-1) b.board (neighborList b.size b.wrap c)) c vflip p))
        = ((neighborList b.size b.wrap e).countP fun p => isMarkedCell (b.board p))
          + (neighborList b.size b.wrap e).count c := by
      rw [countP_updCell_pos _ _ c vflip isMarkedCell hv1 hf1c]
      congr 1
      exact countP_congr_mem fun p _ => hamdP p
    rw [hcount]
    by_cases hec : e = c
    · subst hec
      rw [updCell_self] at hdata'
      rw [hpay] at hdata'
      have hbase := h e he' cc dd hdata'
      rw [count_self_neighborList he']
      rw [markedNbrCount] at hbase
      omega
    · rw [updCell_other _ _ _ hec] at hdata'
      rw [applyMarkDeltas_apply, emptyData_adjustDelta] at hdata'
      cases hbe : emptyData (b.board e) with
      | none => rw [hbe] at hdata'; simp at hdata'
      | some pr =>
          rw [hbe] at hdata'
          simp only [Option.map] at hdata'
          have hinj := Option.some.inj hdata'
          have h1 : pr.1 = cc := congrArg Prod.fst hinj
          have h2 : pr.2 + (-1) * ((neighborList b.size b.wrap c).count e : Int) = dd :=
            congrArg Prod.snd hinj
          have hbase := h e he' pr.1 pr.2 hbe
          rw [markedNbrCount] at hbase
          have hsym : (neighborList b.size b.wrap c).count e
              = (neighborList b.size b.wrap e).count c :=
            neighborList_count_symm b.size b.wrap c e hc he'
          omega
  · -- unmarking: symmetric, with the counter decreasing
    subst hs
    have hf1c : isMarkedCell (applyMarkDeltas 1 b.board
        (neighborList b.size b.wrap c) c) = true := (hamdP c).trans hv0
    have hcount : ((neighborList b.size b.wrap e).countP fun p => isMarkedCell
        (updCell (applyMarkDeltas 1 b.board (neighborList b.size b.wrap c)) c vflip p))
        + (neighborList b.size b.wrap e).count c
        = ((neighborList b.size b.wrap e).countP fun p => isMarkedCell (b.board p)) := by
      rw [countP_updCell_neg _ _ c vflip isMarkedCell hv1 hf1c]
      exact countP_congr_mem fun p _ => hamdP p
    by_cases hec : e = c
    · subst hec
      rw [updCell_self] at hdata'
      rw [hpay] at hdata'
      have hbase := h e he' cc dd hdata'
      rw [markedNbrCount] at hbase
      rw [count_self_neighborList he'] at hcount
      omega
    · rw [updCell_other _ _ _ hec] at hdata'
      rw [applyMarkDeltas_apply, emptyData_adjustDelta] at hdata'
      cases hbe : emptyData (b.board e) with
      | none => rw [hbe] at hdata'; simp at hdata'
      | some pr =>
          rw [hbe] at hdata'
          simp only [Option.map] at hdata'
          have hinj := Option.some.inj hdata'
          have h1 : pr.1 = cc := congrArg Prod.fst hinj
          have h2 : pr.2 + 1 * ((neighborList b.size b.wrap c).count e : Int) = dd :=
            congrArg Prod.snd hinj
          have hbase := h e he' pr.1 pr.2 hbe
          rw [markedNbrCount] at hbase
          have hsym : (neighborList b.size b.wrap c).count e
              = (neighborList b.size b.wrap e).count c :=
            neighborList_count_symm b.size b.wrap c e hc he'
          omega

theorem DeltaInv_congr (b b' : GameBoard) (hs : b'.size = b.size)
    (hw : b'.wrap = b.wrap) (hb : ∀ e, b'.board e = b.board e)
    (h : DeltaInv b) : DeltaInv b' := by
  intro e he cc dd hdata
  rw [hb e] at hdata
  rw [hs] at he
  have hcnt : markedNbrCount b'.size b'.wrap b'.board e
      = markedNbrCount b.size b.wrap b.board e := by
    rw [hs, hw, markedNbrCount, markedNbrCount]
    exact countP_congr_mem fun p _ => by rw [hb p]
  rw [hcnt]
  exact h e he cc dd hdata

theorem DeltaInv_mark (b : GameBoard) (c : Coord) (hc : inBounds b.size c)
    (h : DeltaInv b) : DeltaInv (mark_at b c) := by
  cases hv : b.board c with
  | UndiscoveredMine g =>
      have step := DeltaInv_updflip b c hc h (-1) (.MarkedMine g) (by rw [hv]; rfl)
        (Or.inl ⟨rfl, by rw [hv]; rfl, rfl⟩)
      rw [mark_at_eq_umine hc hv]
      exact fun e he cc dd hd => step e he cc dd hd
  | UndiscoveredEmpty cc dd g =>
      have step := DeltaInv_updflip b c hc h (-1) (.MarkedEmpty cc dd g) (by rw [hv]; rfl)
        (Or.inl ⟨rfl, by rw [hv]; rfl, rfl⟩)
      rw [mark_at_eq_uempty hc hv]
      exact fun e he cc2 dd2 hd => step e he cc2 dd2 hd
  | MarkedMine g =>
      have step := DeltaInv_updflip b c hc h 1 (.UndiscoveredMine g) (by rw [hv]; rfl)
        (Or.inr ⟨rfl, by rw [hv]; rfl, rfl⟩)
      rw [mark_at_eq_mmine hc hv]
      exact fun e he cc dd hd => step e he cc dd hd
  | MarkedEmpty cc dd g =>
      have step := DeltaInv_updflip b c hc h 1 (.UndiscoveredEmpty cc dd g) (by rw [hv]; rfl)
        (Or.inr ⟨rfl, by rw [hv]; rfl, rfl⟩)
      rw [mark_at_eq_mempty hc hv]
      exact fun e he cc2 dd2 hd => step e he cc2 dd2 hd
  | ExplodedMine g =>
      rw [mark_at_eq_exploded hv]
      exact h
  | DiscoveredEmpty cc dd g =>
      rw [mark_at_eq_discovered hv]
      exact h

theorem DeltaInv_updCell (b : GameBoard) (p : Coord) (v : CellState)
    (h : DeltaInv b) (hmk : isMarkedCell v = isMarkedCell (b.board p))
    (hpay : emptyData v = none ∨ emptyData v = emptyData (b.board p)) :
    DeltaInv { b with board := updCell b.board p v } := by
  intro e he cc dd hdata
  have he' : inBounds b.size e := he
  have hdata' : emptyData (updCell b.board p v e) = some (cc, dd) := hdata
  have hcnt : ((neighborList b.size b.wrap e).countP fun q =>
      isMarkedCell (updCell b.board p v q)) = markedNbrCount b.size b.wrap b.board e :=
    countP_updCell_eq _ _ _ _ _ hmk
  have hgoal : dd = (cc : Int) -
      (((neighborList b.size b.wrap e).countP fun q =>
        isMarkedCell (updCell b.board p v q)) : Int) →
      dd = (cc : Int) - (markedNbrCount ({ b with board := updCell b.board p v }).size
        ({ b with board := updCell b.board p v }).wrap
        ({ b with board := updCell b.board p v }).board e : Int) := fun hh => hh
  apply hgoal
  rw [hcnt]
  by_cases hep : e = p
  · subst hep
    rw [updCell_self] at hdata'
    rcases hpay with hp0 | hp0
    · rw [hp0] at hdata'
      cases hdata'
    · rw [hp0] at hdata'
      exact h e he' cc dd hdata'
  · rw [updCell_other _ _ _ hep] at hdata'
    exact h e he' cc dd hdata'

theorem probeStep_snd_subset (b : GameBoard) (p : Coord) (pm : Bool) :
    ∀ e ∈ (probeStep b p pm).2, e ∈ neighborList b.size b.wrap p := by
  rw [probeStep]
  cases hv : b.board p with
  | UndiscoveredMine g => intro e he; simp at he
  | MarkedMine g =>
      cases pm <;> intro e he <;> simp at he
  | ExplodedMine g => intro e he; simp at he
  | UndiscoveredEmpty cc dd g =>
      intro e he
      dsimp only at he
      split_ifs at he with h0
      · exact he
      · simp at he
  | MarkedEmpty cc dd g =>
      cases pm <;> intro e he <;> simp at he
  | DiscoveredEmpty cc dd g => intro e he; simp at he

theorem DeltaInv_probeStep (b : GameBoard) (p : Coord) (pm : Bool)
    (hp : inBounds b.size p) (h : DeltaInv b) : DeltaInv (probeStep b p pm).1 := by
  rw [probeStep]
  cases hv : b.board p with
  | UndiscoveredMine g =>
      have step := DeltaInv_updCell b p (.ExplodedMine g) h (by rw [hv]; rfl)
        (Or.inl rfl)
      exact fun e he cc dd hd => step e he cc dd hd
  | MarkedMine g =>
      cases pm
      · exact h
      · have h1 := DeltaInv_mark b p hp h
        have hb1 : (mark_at b p).board p = CellState.UndiscoveredMine g := by
          rw [mark_at_eq_mmine hp hv]
          exact updCell_self _ _ _
        have step := DeltaInv_updCell (mark_at b p) p (.ExplodedMine g) h1
          (by rw [hb1]; rfl) (Or.inl rfl)
        exact fun e he cc dd hd => step e he cc dd hd
  | ExplodedMine g => exact h
  | UndiscoveredEmpty cc dd g =>
      have step := DeltaInv_updCell b p (.DiscoveredEmpty cc dd g) h (by rw [hv]; rfl)
        (Or.inr (by rw [hv]; rfl))
      exact fun e he cc2 dd2 hd => step e he cc2 dd2 hd
  | MarkedEmpty cc dd g =>
      cases pm
      · exact h
      · have h1 := DeltaInv_mark b p hp h
        have hb1 : (mark_at b p).board p = CellState.UndiscoveredEmpty cc dd g := by
          rw [mark_at_eq_mempty hp hv]
          exact updCell_self _ _ _
        have step := DeltaInv_updCell (mark_at b p) p (.DiscoveredEmpty cc dd g) h1
          (by rw [hb1]; rfl) (Or.inr (by rw [hb1]; rfl))
        exact fun e he cc2 dd2 hd => step e he cc2 dd2 hd
  | DiscoveredEmpty cc dd g => exact h

theorem DeltaInv_probeAux (pm : Bool) : ∀ (fuel : Nat) (b : GameBoard) (q : List Coord),
    (∀ e ∈ q, inBounds b.size e) → DeltaInv b → DeltaInv (probeAux pm fuel b q).1 := by
  intro fuel
  induction fuel with
  | zero =>
      intro b q hq h
      cases q <;> simpa [probeAux] using h
  | succ fuel ih =>
      intro b q hq h
      cases q with
      | nil => simpa [probeAux] using h
      | cons p rest =>
          rw [probeAux]
          have hp : inBounds b.size p := hq p (List.mem_cons_self p rest)
          apply ih
          · intro e he
            rw [probeStep_size]
            rcases List.mem_append.mp he with he | he
            · exact hq e (List.mem_cons_of_mem p he)
            · exact (mem_neighborList hp (probeStep_snd_subset b p pm e he)).1
          · exact DeltaInv_probeStep b p pm hp h

theorem DeltaInv_probe (b : GameBoard) (c : Coord) (pm : Bool)
    (hc : inBounds b.size c) (h : DeltaInv b) : DeltaInv (probe_at b c pm) := by
  have hrun : DeltaInv (probeRun b c pm).1 := by
    apply DeltaInv_probeAux pm (probeFuel b) b [c]
    · intro e he
      rw [List.mem_singleton] at he
      rw [he]
      exact hc
    · exact h
  rw [probe_at_eq_ite]
  split_ifs
  · exact fun e he cc dd hd => hrun e he cc dd hd
  · exact hrun

theorem DeltaInv_highlight (b : GameBoard) (c : Coord) (grp : Nat) (en : Bool)
    (h : DeltaInv b) : DeltaInv (highlight_at b c grp en) := by
  intro e he cc dd hdata
  have he' : inBounds b.size e := by
    rw [highlight_at_size] at he
    exact he
  rw [(highlight_at_shape b c grp en e).1] at hdata
  have hcnt : markedNbrCount (highlight_at b c grp en).size
      (highlight_at b c grp en).wrap (highlight_at b c grp en).board e
      = markedNbrCount b.size b.wrap b.board e := by
    rw [highlight_at_size, highlight_at_wrap, markedNbrCount, markedNbrCount]
    exact countP_congr_mem fun p _ => (highlight_at_shape b c grp en p).2.1
  rw [hcnt]
  exact h e he' cc dd hdata

theorem placeMines_cases (seed : Nat) (d : Dims) (mc : Nat) :
    ∀ (fuel k placed : Nat) (cells : Coord → CellState),
    (∀ e, cells e = .UndiscoveredEmpty 0 0 0 ∨ cells e = .UndiscoveredMine 0) →
    ∀ e, placeMines seed d mc fuel k placed cells e = .UndiscoveredEmpty 0 0 0 ∨
      placeMines seed d mc fuel k placed cells e = .UndiscoveredMine 0 := by
  intro fuel
  induction fuel with
  | zero => intro k placed cells hcell e; exact hcell e
  | succ fuel ih =>
      intro k placed cells hcell e
      rw [placeMines]
      dsimp only
      split_ifs with h1 h2
      · apply ih
        intro e2
        by_cases he2 : e2 = (drawMineCoord seed k d).1
        · subst he2
          right
          exact updCell_self _ _ _
        · rw [updCell_other _ _ _ he2]
          exact hcell e2
      · exact ih _ _ _ hcell e
      · exact hcell e

theorem genBoardCells_cases (d : Dims) (wr : Wraps) (mc seed : Nat) (e : Coord) :
    (∃ cnt : Nat, genBoardCells d wr mc seed e = .UndiscoveredEmpty cnt (cnt : Int) 0) ∨
    genBoardCells d wr mc seed e = .UndiscoveredMine 0 := by
  rw [genBoardCells]
  have hp : placedCells d mc seed e = .UndiscoveredEmpty 0 0 0 ∨
      placedCells d mc seed e = .UndiscoveredMine 0 :=
    placeMines_cases seed d mc (64 * (mc + 1)) 0 0
      (fun _ => .UndiscoveredEmpty 0 0 0) (fun _ => Or.inl rfl) e
  split_ifs with h0
  · exact Or.inl ⟨_, rfl⟩
  · rcases hp with hp | hp
    · exact absurd hp h0
    · exact Or.inr hp

theorem genBoardCells_unmarked (d : Dims) (wr : Wraps) (mc seed : Nat) (e : Coord) :
    isMarkedCell (genBoardCells d wr mc seed e) = false := by
  rcases genBoardCells_cases d wr mc seed e with ⟨cnt, hc⟩ | hc <;> rw [hc] <;> rfl

theorem genBoardCells_delta (d : Dims) (wr : Wraps) (mc seed : Nat) (e : Coord)
    (cc : Nat) (dd : Int) (h : emptyData (genBoardCells d wr mc seed e) = some (cc, dd)) :
    dd = (cc : Int) := by
  rcases genBoardCells_cases d wr mc seed e with ⟨cnt, hc⟩ | hc <;> rw [hc] at h
  · cases h
    rfl
  · cases h

theorem genLoop_cases (d : Dims) (wr : Wraps) (mc : Nat) (initial : Option Coord)
    (seedOpt : Option Nat) (dumb : Nat → Nat) :
    ∀ (fuel att : Nat), ∃ sd, genLoop d wr mc initial seedOpt dumb fuel att
      = (sd, genBoardCells d wr mc sd) := by
  intro fuel
  induction fuel with
  | zero => intro att; exact ⟨_, rfl⟩
  | succ fuel ih =>
      intro att
      rw [genLoop.eq_def]
      dsimp only
      split_ifs with h1
      · exact ⟨_, rfl⟩
      · cases initial with
        | none => exact ⟨_, rfl⟩
        | some c =>
            dsimp only
            cases hcell : genBoardCells d wr mc ((seedOpt.getD (dumb att))) c with
            | UndiscoveredEmpty cc dd g => exact ⟨_, rfl⟩
            | UndiscoveredMine g => exact ih (att + 1)
            | MarkedMine g => exact ih (att + 1)
            | ExplodedMine g => exact ih (att + 1)
            | MarkedEmpty cc dd g => exact ih (att + 1)
            | DiscoveredEmpty cc dd g => exact ih (att + 1)

theorem DeltaInv_genBoard (b : GameBoard) (sd : Nat)
    (hb : ∀ e, b.board e = genBoardCells b.size b.wrap b.mine_count sd e) :
    DeltaInv b := by
  intro e he cc dd hdata
  rw [hb e] at hdata
  have hdd := genBoardCells_delta b.size b.wrap b.mine_count sd e cc dd hdata
  have hcnt : markedNbrCount b.size b.wrap b.board e = 0 := by
    rw [markedNbrCount]
    apply List.countP_eq_zero.mpr
    intro p _
    rw [hb p]
    rw [genBoardCells_unmarked]
    simp
  rw [hcnt, hdd]
  simp

theorem DeltaInv_new (d : Dims) (wr : Wraps) (mc : Nat) (initial : Option Coord)
    (seedOpt : Option Nat) (dumb : Nat → Nat)
    (hinit : ∀ c, initial = some c → inBounds d c) :
    DeltaInv (GameBoard.new d wr mc initial seedOpt dumb) := by
  obtain ⟨sd, hgl⟩ := genLoop_cases d wr mc initial seedOpt dumb 64 0
  have hb0 : ∀ (sv : Nat) (st : GameState) (mk un tf : Nat),
      DeltaInv
        { size := d, wrap := wr, seed := sv,
          board := (genLoop d wr mc initial seedOpt dumb 64 0).2, state := st,
          mine_count := mc, marked_as_mine := mk,
          undiscoved_empty_fields := un, total_fields := tf } := by
    intro sv st mk un tf
    apply DeltaInv_genBoard _ sd
    intro e
    show (genLoop d wr mc initial seedOpt dumb 64 0).2 e = genBoardCells d wr mc sd e
    rw [hgl]
  cases initial with
  | none =>
      exact fun e he cc dd hd =>
        hb0 (genLoop d wr mc none seedOpt dumb 64 0).1 GameState.Running 0
          (((d.x * d.y * d.z * d.u * d.v * d.w) % u64Mod
            + (u64Mod - mc % u64Mod)) % u64Mod)
          ((d.x * d.y * d.z * d.u * d.v * d.w) % u64Mod) e he cc dd hd
  | some c =>
      have hc : inBounds d c := hinit c rfl
      have hp := DeltaInv_probe
        { size := d, wrap := wr,
          seed := (genLoop d wr mc (some c) seedOpt dumb 64 0).1,
          board := (genLoop d wr mc (some c) seedOpt dumb 64 0).2,
          state := GameState.Running, mine_count := mc, marked_as_mine := 0,
          undiscoved_empty_fields := (((d.x * d.y * d.z * d.u * d.v * d.w) % u64Mod
            + (u64Mod - mc % u64Mod)) % u64Mod),
          total_fields := ((d.x * d.y * d.z * d.u * d.v * d.w) % u64Mod) }
        c false hc
        (hb0 (genLoop d wr mc (some c) seedOpt dumb 64 0).1 GameState.Running 0
          (((d.x * d.y * d.z * d.u * d.v * d.w) % u64Mod
            + (u64Mod - mc % u64Mod)) % u64Mod)
          ((d.x * d.y * d.z * d.u * d.v * d.w) % u64Mod))
      exact fun e he cc dd hd => hp e he cc dd hd

theorem Reachable_DeltaInv (b : GameBoard) (h : Reachable b) : DeltaInv b := by
  induction h with
  | base d wr mc initial seedOpt dumb hinit => exact DeltaInv_new d wr mc initial seedOpt dumb hinit
  | probe b c pm _ hc ih => exact DeltaInv_probe b c pm hc ih
  | mark b c _ hc ih => exact DeltaInv_mark b c hc ih
  | highlight b c grp en _ _ ih => exact DeltaInv_highlight b c grp en ih

/-- C1 (amended): for every reachable board and every in-bounds empty cell,
the cell's delta equals its mine_count minus the number of currently marked
cells — marked mines and marked empties alike — among its neighbor
occurrences (a neighbor reached along several wrapped offsets counts once per
occurrence).  The claim's "marked mine cells" is amended to "marked cells":
mark_at decrements neighbor deltas when marking any cell, mines and empties
alike, so the invariant with marked mines only fails (see the
counterexample). -/
theorem claim1_delta_invariant (b : GameBoard) (hb : Reachable b) :
    ∀ c, inBounds b.size c → ∀ cc dd, emptyData (b.board c) = some (cc, dd) →
      dd = (cc : Int) - (markedNbrCount b.size b.wrap b.board c : Int) :=
  Reachable_DeltaInv b hb

theorem claim1_witness :
    Reachable (GameBoard.new ⟨2, 1, 1, 1, 1, 1⟩ noWraps 0 none (some 0) dumbZero) ∧
    (∀ c, inBounds (GameBoard.new ⟨2, 1, 1, 1, 1, 1⟩ noWraps 0 none (some 0) dumbZero).size c →
      ∀ cc dd, emptyData ((GameBoard.new ⟨2, 1, 1, 1, 1, 1⟩ noWraps 0 none
        (some 0) dumbZero).board c) = some (cc, dd) →
      dd = (cc : Int) - (markedNbrCount
        (GameBoard.new ⟨2, 1, 1, 1, 1, 1⟩ noWraps 0 none (some 0) dumbZero).size
        (GameBoard.new ⟨2, 1, 1, 1, 1, 1⟩ noWraps 0 none (some 0) dumbZero).wrap
        (GameBoard.new ⟨2, 1, 1, 1, 1, 1⟩ noWraps 0 none (some 0) dumbZero).board c : Int)) :=
  ⟨Reachable.base _ _ _ _ _ _ (fun c h => nomatch h),
   claim1_delta_invariant _ (Reachable.base _ _ _ _ _ _ (fun c h => nomatch h))⟩

/-- C1 (counterexample): construct a mine-free 2-cell strip with an explicit
seed and mark cell (0,..): the empty in-bounds cell (1,..) then carries
delta −1 although it has no MarkedMine neighbor, so delta differs from
mine_count minus the number of currently-marked MINE cells. -/
theorem claim1_counterexample :
    Reachable (mark_at (GameBoard.new ⟨2, 1, 1, 1, 1, 1⟩ noWraps 0 none
      (some 0) dumbZero) exC0) ∧
    inBounds (mark_at (GameBoard.new ⟨2, 1, 1, 1, 1, 1⟩ noWraps 0 none
      (some 0) dumbZero) exC0).size exC1 ∧
    emptyData ((mark_at (GameBoard.new ⟨2, 1, 1, 1, 1, 1⟩ noWraps 0 none
      (some 0) dumbZero) exC0).board exC1) = some (0, -1) ∧
    ((-1 : Int) ≠ ((0 : Nat) : Int) - (markedMineNbrCount
      (mark_at (GameBoard.new ⟨2, 1, 1, 1, 1, 1⟩ noWraps 0 none (some 0) dumbZero) exC0).size
      (mark_at (GameBoard.new ⟨2, 1, 1, 1, 1, 1⟩ noWraps 0 none (some 0) dumbZero) exC0).wrap
      (mark_at (GameBoard.new ⟨2, 1, 1, 1, 1, 1⟩ noWraps 0 none (some 0) dumbZero) exC0).board
      exC1 : Int)) :=
  ⟨Reachable.mark _ _ (Reachable.base _ _ _ _ _ _ (fun c h => nomatch h)) (by decide),
   by decide, by decide, by decide⟩

theorem amd_ccOf (s : Int) (f : Coord → CellState) (l : List Coord) (p : Coord) :
    ccOf (applyMarkDeltas s f l p) = ccOf (f p) := by
  rw [applyMarkDeltas_apply, ccOf_adjustDelta]

theorem amd_isMine (s : Int) (f : Coord → CellState) (l : List Coord) (p : Coord) :
    isMineCell (applyMarkDeltas s f l p) = isMineCell (f p) := by
  rw [applyMarkDeltas_apply, isMineCell_adjustDelta]

theorem mark_at_cc_mine (b : GameBoard) (c : Coord) (hc : inBounds b.size c)
    (e : Coord) :
    ccOf ((mark_at b c).board e) = ccOf (b.board e) ∧
    isMineCell ((mark_at b c).board e) = isMineCell (b.board e) := by
  cases hv : b.board c with
  | UndiscoveredMine g =>
      rw [mark_at_eq_umine hc hv]
      by_cases hec : e = c
      · subst hec
        dsimp only
        rw [updCell_self, hv]
        exact ⟨rfl, rfl⟩
      · dsimp only
        rw [updCell_other _ _ _ hec, amd_ccOf, amd_isMine]
        exact ⟨rfl, rfl⟩
  | MarkedMine g =>
      rw [mark_at_eq_mmine hc hv]
      by_cases hec : e = c
      · subst hec
        dsimp only
        rw [updCell_self, hv]
        exact ⟨rfl, rfl⟩
      · dsimp only
        rw [updCell_other _ _ _ hec, amd_ccOf, amd_isMine]
        exact ⟨rfl, rfl⟩
  | ExplodedMine g =>
      rw [mark_at_eq_exploded hv]
      exact ⟨rfl, rfl⟩
  | UndiscoveredEmpty cc dd g =>
      rw [mark_at_eq_uempty hc hv]
      by_cases hec : e = c
      · subst hec
        dsimp only
        rw [updCell_self, hv]
        exact ⟨rfl, rfl⟩
      · dsimp only
        rw [updCell_other _ _ _ hec, amd_ccOf, amd_isMine]
        exact ⟨rfl, rfl⟩
  | MarkedEmpty cc dd g =>
      rw [mark_at_eq_mempty hc hv]
      by_cases hec : e = c
      · subst hec
        dsimp only
        rw [updCell_self, hv]
        exact ⟨rfl, rfl⟩
      · dsimp only
        rw [updCell_other _ _ _ hec, amd_ccOf, amd_isMine]
        exact ⟨rfl, rfl⟩
  | DiscoveredEmpty cc dd g =>
      rw [mark_at_eq_discovered hv]
      exact ⟨rfl, rfl⟩

theorem probeStep_cc_mine (b : GameBoard) (p : Coord) (pm : Bool)
    (hp : inBounds b.size p) (e : Coord) :
    ccOf ((probeStep b p pm).1.board e) = ccOf (b.board e) ∧
    isMineCell ((probeStep b p pm).1.board e) = isMineCell (b.board e) := by
  rw [probeStep]
  cases hv : b.board p with
  | UndiscoveredMine g =>
      dsimp only
      by_cases hep : e = p
      · subst hep
        rw [updCell_self, hv]
        exact ⟨rfl, rfl⟩
      · rw [updCell_other _ _ _ hep]
        exact ⟨rfl, rfl⟩
  | MarkedMine g =>
      cases pm
      · exact ⟨rfl, rfl⟩
      · dsimp only
        rw [if_pos rfl]
        dsimp only
        have hm := mark_at_cc_mine b p hp e
        have hb1 : (mark_at b p).board p = CellState.UndiscoveredMine g := by
          rw [mark_at_eq_mmine hp hv]
          exact updCell_self _ _ _
        by_cases hep : e = p
        · subst hep
          rw [updCell_self, hv]
          exact ⟨rfl, rfl⟩
        · rw [updCell_other _ _ _ hep]
          exact hm
  | ExplodedMine g => exact ⟨rfl, rfl⟩
  | UndiscoveredEmpty cc dd g =>
      dsimp only
      by_cases hep : e = p
      · subst hep
        rw [updCell_self, hv]
        exact ⟨rfl, rfl⟩
      · rw [updCell_other _ _ _ hep]
        exact ⟨rfl, rfl⟩
  | MarkedEmpty cc dd g =>
      cases pm
      · exact ⟨rfl, rfl⟩
      · dsimp only
        rw [if_pos rfl]
        dsimp only
        have hm := mark_at_cc_mine b p hp e
        by_cases hep : e = p
        · subst hep
          rw [updCell_self, hv]
          exact ⟨rfl, rfl⟩
        · rw [updCell_other _ _ _ hep]
          exact hm
  | DiscoveredEmpty cc dd g => exact ⟨rfl, rfl⟩

theorem probeAux_cc_mine (pm : Bool) : ∀ (fuel : Nat) (b : GameBoard) (q : List Coord),
    (∀ x ∈ q, inBounds b.size x) → ∀ e,
    ccOf ((probeAux pm fuel b q).1.board e) = ccOf (b.board e) ∧
    isMineCell ((probeAux pm fuel b q).1.board e) = isMineCell (b.board e) := by
  intro fuel
  induction fuel with
  | zero =>
      intro b q hq e
      cases q <;> exact ⟨rfl, rfl⟩
  | succ fuel ih =>
      intro b q hq e
      cases q with
      | nil => exact ⟨rfl, rfl⟩
      | cons p rest =>
          rw [probeAux]
          have hp : inBounds b.size p := hq p (List.mem_cons_self p rest)
          have hstep := probeStep_cc_mine b p pm hp e
          have hrec := ih (probeStep b p pm).1 (rest ++ (probeStep b p pm).2) ?_ e
          · exact ⟨hrec.1.trans hstep.1, hrec.2.trans hstep.2⟩
          · intro x hx
            rw [probeStep_size]
            rcases List.mem_append.mp hx with hx | hx
            · exact hq x (List.mem_cons_of_mem p hx)
            · exact (mem_neighborList hp (probeStep_snd_subset b p pm x hx)).1

theorem probe_at_cc_mine (b : GameBoard) (c : Coord) (pm : Bool)
    (hc : inBounds b.size c) (e : Coord) :
    ccOf ((probe_at b c pm).board e) = ccOf (b.board e) ∧
    isMineCell ((probe_at b c pm).board e) = isMineCell (b.board e) := by
  have hrun := probeAux_cc_mine pm (probeFuel b) b [c]
    (fun x hx => by rw [List.mem_singleton] at hx; rw [hx]; exact hc) e
  rw [probe_at_eq_ite]
  split_ifs
  · exact hrun
  · exact hrun

theorem probeAux_size_wrap (pm : Bool) : ∀ (fuel : Nat) (b : GameBoard) (q : List Coord),
    (probeAux pm fuel b q).1.size = b.size ∧ (probeAux pm fuel b q).1.wrap = b.wrap := by
  intro fuel
  induction fuel with
  | zero => intro b q; cases q <;> exact ⟨rfl, rfl⟩
  | succ fuel ih =>
      intro b q
      cases q with
      | nil => exact ⟨rfl, rfl⟩
      | cons p rest =>
          rw [probeAux]
          have h := ih (probeStep b p pm).1 (rest ++ (probeStep b p pm).2)
          exact ⟨h.1.trans (probeStep_size b p pm), h.2.trans (probeStep_wrap b p pm)⟩

theorem probe_at_size (b : GameBoard) (c : Coord) (pm : Bool) :
    (probe_at b c pm).size = b.size := by
  rw [probe_at_eq_ite]
  split_ifs
  · exact (probeAux_size_wrap pm (probeFuel b) b [c]).1
  · exact (probeAux_size_wrap pm (probeFuel b) b [c]).1

theorem probe_at_wrap (b : GameBoard) (c : Coord) (pm : Bool) :
    (probe_at b c pm).wrap = b.wrap := by
  rw [probe_at_eq_ite]
  split_ifs
  · exact (probeAux_size_wrap pm (probeFuel b) b [c]).2
  · exact (probeAux_size_wrap pm (probeFuel b) b [c]).2

theorem countP_fullWindow (d : Dims) (wr : Wraps) (c : Coord) (P : Coord → Bool)
    (hcen : P c = false) :
    (fullWindowList d wr c).countP P = (neighborList d wr c).countP P := by
  rw [fullWindowList, neighborList, List.countP_map, List.countP_map, List.countP_filter]
  apply countP_congr_mem
  intro t _
  by_cases ht : t = icoordOf c
  · subst ht
    simp [Function.comp, coordOfI_icoordOf, hcen]
  · simp [Function.comp, ht]

theorem placedCells_cases (d : Dims) (mc seed : Nat) (e : Coord) :
    placedCells d mc seed e = .UndiscoveredEmpty 0 0 0 ∨
      placedCells d mc seed e = .UndiscoveredMine 0 :=
  placeMines_cases seed d mc (64 * (mc + 1)) 0 0 _ (fun _ => Or.inl rfl) e

theorem genMineCount_eq_countP (d : Dims) (wr : Wraps) (mc seed : Nat) (c : Coord) :
    genMineCount d wr (placedCells d mc seed) c =
      (fullWindowList d wr c).countP fun p => isMineCell (placedCells d mc seed p) := by
  rw [genMineCount]
  apply countP_congr_mem
  intro p _
  rcases placedCells_cases d mc seed p with hp | hp <;> rw [hp] <;> rfl

theorem genBoardCells_mine (d : Dims) (wr : Wraps) (mc seed : Nat) (e : Coord) :
    isMineCell (genBoardCells d wr mc seed e) = isMineCell (placedCells d mc seed e) := by
  rw [genBoardCells]
  split_ifs with h0
  · rw [h0]
    rfl
  · rfl

theorem MineCountOK_genBoard (b : GameBoard) (sd : Nat)
    (hb : ∀ e, b.board e = genBoardCells b.size b.wrap b.mine_count sd e) :
    MineCountOK b := by
  intro c hc cc hcc
  rw [hb c, genBoardCells] at hcc
  by_cases h0 : placedCells b.size b.mine_count sd c = .UndiscoveredEmpty 0 0 0
  · rw [if_pos h0] at hcc
    have hcc' : some (genMineCount b.size b.wrap (placedCells b.size b.mine_count sd) c)
        = some cc := hcc
    have hzz := Option.some.inj hcc'
    subst hzz
    rw [genMineCount_eq_countP]
    have hcen : isMineCell (placedCells b.size b.mine_count sd c) = false := by
      rw [h0]
      rfl
    rw [countP_fullWindow _ _ _ _ hcen, mineNbrCount]
    apply countP_congr_mem
    intro p _
    rw [hb p, genBoardCells_mine]
  · rw [if_neg h0] at hcc
    rcases placedCells_cases b.size b.mine_count sd c with hp | hp
    · exact absurd hp h0
    · rw [hp] at hcc
      cases hcc

theorem MineCountOK_pointwise (b b' : GameBoard) (hs : b'.size = b.size)
    (hw : b'.wrap = b.wrap)
    (hcc : ∀ e, ccOf (b'.board e) = ccOf (b.board e))
    (hm : ∀ e, isMineCell (b'.board e) = isMineCell (b.board e))
    (h : MineCountOK b) : MineCountOK b' := by
  intro c hc cc hcv
  rw [hs] at hc
  rw [hcc c] at hcv
  have hv := h c hc cc hcv
  rw [hv, mineNbrCount, mineNbrCount, hs, hw]
  apply countP_congr_mem
  intro p _
  exact (hm p).symm

theorem MineCountOK_mark (b : GameBoard) (c : Coord) (hc : inBounds b.size c)
    (h : MineCountOK b) : MineCountOK (mark_at b c) :=
  MineCountOK_pointwise b (mark_at b c) (mark_at_size b c) (mark_at_wrap b c)
    (fun e => (mark_at_cc_mine b c hc e).1) (fun e => (mark_at_cc_mine b c hc e).2) h

theorem MineCountOK_probe (b : GameBoard) (c : Coord) (pm : Bool)
    (hc : inBounds b.size c) (h : MineCountOK b) : MineCountOK (probe_at b c pm) :=
  MineCountOK_pointwise b (probe_at b c pm) (probe_at_size b c pm) (probe_at_wrap b c pm)
    (fun e => (probe_at_cc_mine b c pm hc e).1) (fun e => (probe_at_cc_mine b c pm hc e).2) h

theorem MineCountOK_highlight (b : GameBoard) (c : Coord) (grp : Nat) (en : Bool)
    (h : MineCountOK b) : MineCountOK (highlight_at b c grp en) :=
  MineCountOK_pointwise b (highlight_at b c grp en)
    (highlight_at_size b c grp en) (highlight_at_wrap b c grp en)
    (fun e => congrArg (Option.map Prod.fst) (highlight_at_shape b c grp en e).1)
    (fun e => (highlight_at_shape b c grp en e).2.2.1) h

theorem MineCountOK_new (d : Dims) (wr : Wraps) (mc : Nat) (initial : Option Coord)
    (seedOpt : Option Nat) (dumb : Nat → Nat)
    (hinit : ∀ c, initial = some c → inBounds d c) :
    MineCountOK (GameBoard.new d wr mc initial seedOpt dumb) := by
  obtain ⟨sd, hgl⟩ := genLoop_cases d wr mc initial seedOpt dumb 64 0
  have hb0 : ∀ (sv : Nat) (st : GameState) (mk un tf : Nat),
      MineCountOK
        { size := d, wrap := wr, seed := sv,
          board := (genLoop d wr mc initial seedOpt dumb 64 0).2, state := st,
          mine_count := mc, marked_as_mine := mk,
          undiscoved_empty_fields := un, total_fields := tf } := by
    intro sv st mk un tf
    apply MineCountOK_genBoard _ sd
    intro e
    show (genLoop d wr mc initial seedOpt dumb 64 0).2 e = genBoardCells d wr mc sd e
    rw [hgl]
  cases initial with
  | none =>
      exact fun e he cc hd =>
        hb0 (genLoop d wr mc none seedOpt dumb 64 0).1 GameState.Running 0
          (((d.x * d.y * d.z * d.u * d.v * d.w) % u64Mod
            + (u64Mod - mc % u64Mod)) % u64Mod)
          ((d.x * d.y * d.z * d.u * d.v * d.w) % u64Mod) e he cc hd
  | some c =>
      have hc : inBounds d c := hinit c rfl
      have hp := MineCountOK_probe
        { size := d, wrap := wr,
          seed := (genLoop d wr mc (some c) seedOpt dumb 64 0).1,
          board := (genLoop d wr mc (some c) seedOpt dumb 64 0).2,
          state := GameState.Running, mine_count := mc, marked_as_mine := 0,
          undiscoved_empty_fields := (((d.x * d.y * d.z * d.u * d.v * d.w) % u64Mod
            + (u64Mod - mc % u64Mod)) % u64Mod),
          total_fields := ((d.x * d.y * d.z * d.u * d.v * d.w) % u64Mod) }
        c false hc
        (hb0 (genLoop d wr mc (some c) seedOpt dumb 64 0).1 GameState.Running 0
          (((d.x * d.y * d.z * d.u * d.v * d.w) % u64Mod
            + (u64Mod - mc % u64Mod)) % u64Mod)
          ((d.x * d.y * d.z * d.u * d.v * d.w) % u64Mod))
      exact fun e he cc hd => hp e he cc hd

theorem Reachable_MineCountOK (b : GameBoard) (h : Reachable b) : MineCountOK b := by
  induction h with
  | base d wr mc initial seedOpt dumb hinit =>
      exact MineCountOK_new d wr mc initial seedOpt dumb hinit
  | probe b c pm _ hc ih => exact MineCountOK_probe b c pm hc ih
  | mark b c _ hc ih => exact MineCountOK_mark b c hc ih
  | highlight b c grp en _ _ ih => exact MineCountOK_highlight b c grp en ih

/-- C7 (amended): on every reachable board, every in-bounds empty cell's
mine_count equals the number of mine cells among its neighbor OCCURRENCES
(the cross product of the six per-axis windows minus the center, so a
neighbor reached along several wrapped offsets is counted once per
occurrence — not the number of mines in the distinct neighbor set, see the
counterexample); and no mark_at, probe_at, or highlight_at call changes any
cell's mine_count field. -/
theorem claim7_mine_count (b : GameBoard) (hb : Reachable b) (c : Coord)
    (hc : inBounds b.size c) :
    (∀ cc, ccOf (b.board c) = some cc → cc = mineNbrCount b.size b.wrap b.board c) ∧
    (∀ e, ccOf ((mark_at b c).board e) = ccOf (b.board e)) ∧
    (∀ pm e, ccOf ((probe_at b c pm).board e) = ccOf (b.board e)) ∧
    (∀ grp en e, ccOf ((highlight_at b c grp en).board e) = ccOf (b.board e)) :=
  ⟨fun cc hcc => Reachable_MineCountOK b hb c hc cc hcc,
   fun e => (mark_at_cc_mine b c hc e).1,
   fun pm e => (probe_at_cc_mine b c pm hc e).1,
   fun grp en e => congrArg (Option.map Prod.fst) (highlight_at_shape b c grp en e).1⟩

theorem claim7_witness :
    (Reachable (GameBoard.new ⟨2, 1, 1, 1, 1, 1⟩ noWraps 1 none (some 1) dumbZero) ∧
     inBounds (GameBoard.new ⟨2, 1, 1, 1, 1, 1⟩ noWraps 1 none (some 1) dumbZero).size exC0) ∧
    ((∀ cc, ccOf ((GameBoard.new ⟨2, 1, 1, 1, 1, 1⟩ noWraps 1 none (some 1) dumbZero).board exC0)
        = some cc →
        cc = mineNbrCount
          (GameBoard.new ⟨2, 1, 1, 1, 1, 1⟩ noWraps 1 none (some 1) dumbZero).size
          (GameBoard.new ⟨2, 1, 1, 1, 1, 1⟩ noWraps 1 none (some 1) dumbZero).wrap
          (GameBoard.new ⟨2, 1, 1, 1, 1, 1⟩ noWraps 1 none (some 1) dumbZero).board exC0) ∧
     (∀ e, ccOf ((mark_at (GameBoard.new ⟨2, 1, 1, 1, 1, 1⟩ noWraps 1 none (some 1) dumbZero)
        exC0).board e)
        = ccOf ((GameBoard.new ⟨2, 1, 1, 1, 1, 1⟩ noWraps 1 none (some 1) dumbZero).board e)) ∧
     (∀ pm e, ccOf ((probe_at (GameBoard.new ⟨2, 1, 1, 1, 1, 1⟩ noWraps 1 none (some 1) dumbZero)
        exC0 pm).board e)
        = ccOf ((GameBoard.new ⟨2, 1, 1, 1, 1, 1⟩ noWraps 1 none (some 1) dumbZero).board e)) ∧
     (∀ grp en e, ccOf ((highlight_at
        (GameBoard.new ⟨2, 1, 1, 1, 1, 1⟩ noWraps 1 none (some 1) dumbZero)
        exC0 grp en).board e)
        = ccOf ((GameBoard.new ⟨2, 1, 1, 1, 1, 1⟩ noWraps 1 none (some 1) dumbZero).board e))) :=
  ⟨⟨Reachable.base _ _ _ _ _ _ (fun c h => nomatch h), by decide⟩,
   claim7_mine_count _ (Reachable.base ⟨2, 1, 1, 1, 1, 1⟩ noWraps 1 none (some 1) dumbZero
     (fun c h => nomatch h)) exC0 (by decide)⟩

/-- C7 (counterexample): with the x axis wrapped on a strip of width 2, the
x window of cell 0 reaches cell 1 twice (as index −1 wrapped to the highest
index, and as index +1), so the generated mine_count of cell 0 is 2 although
its distinct neighbor set contains exactly one mine cell: the claim's "exact
number of mine cells in that cell's neighbor set" fails on this reachable
board. -/
theorem claim7_counterexample :
    Reachable (GameBoard.new ⟨2, 1, 1, 1, 1, 1⟩ wrapXOnly 1 none (some 1) dumbZero) ∧
    inBounds (GameBoard.new ⟨2, 1, 1, 1, 1, 1⟩ wrapXOnly 1 none (some 1) dumbZero).size exC0 ∧
    ccOf ((GameBoard.new ⟨2, 1, 1, 1, 1, 1⟩ wrapXOnly 1 none (some 1) dumbZero).board exC0)
      = some 2 ∧
    specDistinctMineNbrs
      (GameBoard.new ⟨2, 1, 1, 1, 1, 1⟩ wrapXOnly 1 none (some 1) dumbZero).size
      (GameBoard.new ⟨2, 1, 1, 1, 1, 1⟩ wrapXOnly 1 none (some 1) dumbZero).wrap
      (GameBoard.new ⟨2, 1, 1, 1, 1, 1⟩ wrapXOnly 1 none (some 1) dumbZero).board exC0 = 1 ∧
    (2 : Nat) ≠ 1 :=
  ⟨Reachable.base _ _ _ _ _ _ (fun c h => nomatch h), by decide, by decide, by decide,
   by decide⟩

/-- C4: on a board in the Running state (the only state from which the claim's
"sets" is a live transition), probe_at ends in Victory iff, on the drained
state of its flood-fill queue, the undiscovered-empty counter is 0 and the
state is not Loss; and it ends in Loss iff the run dequeued an
UndiscoveredMine, or — with allow_probing_marked — a MarkedMine (`probeHit`
records exactly the loss-causing match arms fired along the actual dequeue
sequence). -/
theorem claim4_probe_outcomes (b : GameBoard) (c : Coord) (pm : Bool)
    (hb : b.state = GameState.Running) :
    ((probe_at b c pm).state = GameState.Victory ↔
      ((probeRun b c pm).1.undiscoved_empty_fields = 0 ∧
        (probeRun b c pm).1.state ≠ GameState.Loss)) ∧
    ((probe_at b c pm).state = GameState.Loss ↔ probeHit b c pm = true) :=
  ⟨probe_at_victory_iff b c pm hb, probe_at_loss_iff_hit b c pm hb⟩

theorem claim4_witness :
    exStaticBoard.state = GameState.Running ∧
    (((probe_at exStaticBoard exC0 false).state = GameState.Victory ↔
       ((probeRun exStaticBoard exC0 false).1.undiscoved_empty_fields = 0 ∧
         (probeRun exStaticBoard exC0 false).1.state ≠ GameState.Loss)) ∧
     ((probe_at exStaticBoard exC0 false).state = GameState.Loss ↔
       probeHit exStaticBoard exC0 false = true)) :=
  ⟨rfl, claim4_probe_outcomes exStaticBoard exC0 false rfl⟩

/-- C5 (amended): mark_at and highlight_at never change the state; probe_at
either leaves the state unchanged, or moves a non-Loss state to Loss, or
moves Running to Victory; and Loss is terminal under probing.  The claim's
"both Victory and Loss are terminal" is amended: Victory is NOT terminal —
probing a remaining mine on a Victory board moves it to Loss (see the
counterexample). -/
theorem claim5_state_transitions (b : GameBoard) (c : Coord) (pm : Bool)
    (grp : Nat) (en : Bool) :
    (mark_at b c).state = b.state ∧
    (highlight_at b c grp en).state = b.state ∧
    ((probe_at b c pm).state = b.state ∨
      ((probe_at b c pm).state = GameState.Loss ∧ b.state ≠ GameState.Loss) ∨
      ((probe_at b c pm).state = GameState.Victory ∧ b.state = GameState.Running)) ∧
    (b.state = GameState.Loss → (probe_at b c pm).state = GameState.Loss) :=
  ⟨mark_at_state b c, highlight_at_state b c grp en, probe_at_state_cases b c pm,
   probe_at_loss_stable b c pm⟩

/-- C5 (counterexample): a reachable Victory board is driven to Loss by one
more probe.  On the 2-cell strip with one mine at index 1, probing cell 0
discovers the last empty cell and yields Victory; probing cell 1 afterwards
explodes the mine and the state becomes Loss, so Victory is not terminal. -/
theorem claim5_counterexample :
    Reachable (probe_at (GameBoard.new ⟨2, 1, 1, 1, 1, 1⟩ noWraps 1 none (some 1) dumbZero)
      exC0 false) ∧
    (probe_at (GameBoard.new ⟨2, 1, 1, 1, 1, 1⟩ noWraps 1 none (some 1) dumbZero)
      exC0 false).state = GameState.Victory ∧
    (probe_at (probe_at (GameBoard.new ⟨2, 1, 1, 1, 1, 1⟩ noWraps 1 none (some 1) dumbZero)
      exC0 false) exC1 false).state = GameState.Loss ∧
    GameState.Victory ≠ GameState.Loss :=
  ⟨Reachable.probe _ _ _ (Reachable.base ⟨2, 1, 1, 1, 1, 1⟩ noWraps 1 none (some 1) dumbZero
      (fun c h => nomatch h)) (by decide),
   by decide, by decide, by decide⟩

theorem amd_uzero (s : Int) (f : Coord → CellState) (l : List Coord) (p : Coord) :
    isUZeroCell (applyMarkDeltas s f l p) = isUZeroCell (f p) := by
  rw [applyMarkDeltas_apply, isUZeroCell_adjustDelta]

theorem mark_at_uzero (b : GameBoard) (c : Coord) (hc : inBounds b.size c)
    (e : Coord) (hec : e ≠ c) :
    isUZeroCell ((mark_at b c).board e) = isUZeroCell (b.board e) := by
  cases hv : b.board c with
  | UndiscoveredMine g =>
      rw [mark_at_eq_umine hc hv]
      dsimp only
      rw [updCell_other _ _ _ hec, amd_uzero]
  | MarkedMine g =>
      rw [mark_at_eq_mmine hc hv]
      dsimp only
      rw [updCell_other _ _ _ hec, amd_uzero]
  | ExplodedMine g => rw [mark_at_eq_exploded hv]
  | UndiscoveredEmpty cc dd g =>
      rw [mark_at_eq_uempty hc hv]
      dsimp only
      rw [updCell_other _ _ _ hec, amd_uzero]
  | MarkedEmpty cc dd g =>
      rw [mark_at_eq_mempty hc hv]
      dsimp only
      rw [updCell_other _ _ _ hec, amd_uzero]
  | DiscoveredEmpty cc dd g => rw [mark_at_eq_discovered hv]

theorem probeStep_uzero (b : GameBoard) (p : Coord) (pm : Bool)
    (hp : inBounds b.size p) (e : Coord) :
    isUZeroCell ((probeStep b p pm).1.board e) = true →
    isUZeroCell (b.board e) = true := by
  rw [probeStep]
  cases hv : b.board p with
  | UndiscoveredMine g =>
      dsimp only
      by_cases hep : e = p
      · subst hep
        rw [updCell_self]
        intro h
        cases h
      · rw [updCell_other _ _ _ hep]
        exact fun h => h
  | MarkedMine g =>
      cases pm
      · exact fun h => h
      · dsimp only
        rw [if_pos rfl]
        dsimp only
        by_cases hep : e = p
        · subst hep
          rw [updCell_self]
          intro h
          cases h
        · rw [updCell_other _ _ _ hep, mark_at_uzero b p hp e hep]
          exact fun h => h
  | ExplodedMine g => exact fun h => h
  | UndiscoveredEmpty cc dd g =>
      dsimp only
      by_cases hep : e = p
      · subst hep
        rw [updCell_self]
        intro h
        cases h
      · rw [updCell_other _ _ _ hep]
        exact fun h => h
  | MarkedEmpty cc dd g =>
      cases pm
      · exact fun h => h
      · dsimp only
        rw [if_pos rfl]
        dsimp only
        by_cases hep : e = p
        · subst hep
          rw [updCell_self]
          intro h
          cases h
        · rw [updCell_other _ _ _ hep, mark_at_uzero b p hp e hep]
          exact fun h => h
  | DiscoveredEmpty cc dd g => exact fun h => h

theorem probeStep_snd_cases (b : GameBoard) (p : Coord) (pm : Bool) :
    (probeStep b p pm).2 = [] ∨
    ((probeStep b p pm).2 = neighborList b.size b.wrap p ∧
      isUZeroCell (b.board p) = true ∧
      isUZeroCell ((probeStep b p pm).1.board p) = false) := by
  rw [probeStep]
  cases hv : b.board p with
  | UndiscoveredMine g => exact Or.inl rfl
  | MarkedMine g =>
      cases pm
      · exact Or.inl rfl
      · dsimp only
        rw [if_pos rfl]
        exact Or.inl rfl
  | ExplodedMine g => exact Or.inl rfl
  | UndiscoveredEmpty cc dd g =>
      dsimp only
      cases cc with
      | zero =>
          right
          refine ⟨by rw [if_pos rfl], rfl, ?_⟩
          rw [updCell_self]
          rfl
      | succ cc =>
          left
          rw [if_neg]
          intro h
          cases h
  | MarkedEmpty cc dd g =>
      cases pm
      · exact Or.inl rfl
      · dsimp only
        rw [if_pos rfl]
        exact Or.inl rfl
  | DiscoveredEmpty cc dd g => exact Or.inl rfl

theorem mem_allCoords (d : Dims) (e : Coord) : e ∈ allCoords d ↔ inBounds d e := by
  rw [allCoords, inBounds]
  simp only [List.mem_flatMap, List.mem_map, List.mem_range]
  constructor
  · rintro ⟨iw, hw, iv, hv, iu, hu, iz, hz, iy, hy, ix, hx, rfl⟩
    exact ⟨hx, hy, hz, hu, hv, hw⟩
  · rintro ⟨hx, hy, hz, hu, hv, hw⟩
    exact ⟨e.w, hw, e.v, hv, e.u, hu, e.z, hz, e.y, hy, e.x, hx, rfl⟩

theorem mem_uzeroFinset (d : Dims) (f : Coord → CellState) (e : Coord) :
    e ∈ uzeroFinset d f ↔ inBounds d e ∧ isUZeroCell (f e) = true := by
  rw [uzeroFinset, Finset.mem_filter, List.mem_toFinset, mem_allCoords]

theorem uzeroFinset_probeStep_subset (b : GameBoard) (p : Coord) (pm : Bool)
    (hp : inBounds b.size p) :
    uzeroFinset b.size (probeStep b p pm).1.board ⊆ uzeroFinset b.size b.board := by
  intro e he
  rw [mem_uzeroFinset] at he ⊢
  exact ⟨he.1, probeStep_uzero b p pm hp e he.2⟩

theorem probeAux_drain (pm : Bool) : ∀ (fuel : Nat) (b : GameBoard) (q : List Coord),
    (∀ x ∈ q, inBounds b.size x) →
    probeMeasure b.size b.board q ≤ fuel →
    (probeAux pm fuel b q).2 = [] := by
  intro fuel
  induction fuel with
  | zero =>
      intro b q hq hm
      rw [probeMeasure] at hm
      have hlen : q.length = 0 := by omega
      rw [List.length_eq_zero] at hlen
      subst hlen
      rfl
  | succ fuel ih =>
      intro b q hq hm
      cases q with
      | nil => rfl
      | cons p rest =>
          rw [probeAux]
          have hp : inBounds b.size p := hq p (List.mem_cons_self p rest)
          have hqin : ∀ x ∈ rest ++ (probeStep b p pm).2,
              inBounds (probeStep b p pm).1.size x := by
            intro x hx
            rw [probeStep_size]
            rcases List.mem_append.mp hx with hx | hx
            · exact hq x (List.mem_cons_of_mem p hx)
            · exact (mem_neighborList hp (probeStep_snd_subset b p pm x hx)).1
          apply ih (probeStep b p pm).1 (rest ++ (probeStep b p pm).2) hqin
          rw [probeStep_size, probeMeasure, List.length_append]
          rw [probeMeasure, List.length_cons] at hm
          have hcard : (uzeroFinset b.size (probeStep b p pm).1.board).card
              ≤ (uzeroFinset b.size b.board).card :=
            Finset.card_le_card (uzeroFinset_probeStep_subset b p pm hp)
          rcases probeStep_snd_cases b p pm with hsnd | ⟨hsnd, hzold, hznew⟩
          · rw [hsnd]
            simp only [List.length_nil]
            omega
          · have hlen : (probeStep b p pm).2.length ≤ 729 := by
              rw [hsnd]
              exact neighborList_length_le hp
            have hpmem : p ∈ uzeroFinset b.size b.board := by
              rw [mem_uzeroFinset]
              exact ⟨hp, hzold⟩
            have hsub : uzeroFinset b.size (probeStep b p pm).1.board
                ⊆ (uzeroFinset b.size b.board).erase p := by
              intro e he
              rw [Finset.mem_erase]
              refine ⟨?_, uzeroFinset_probeStep_subset b p pm hp he⟩
              intro hep
              subst hep
              rw [mem_uzeroFinset] at he
              rw [he.2] at hznew
              exact absurd hznew (by decide)
            have hcard2 : (uzeroFinset b.size (probeStep b p pm).1.board).card
                ≤ (uzeroFinset b.size b.board).card - 1 := by
              have hs := Finset.card_le_card hsub
              rwa [Finset.card_erase_of_mem hpmem] at hs
            have hpos : 0 < (uzeroFinset b.size b.board).card :=
              Finset.card_pos.mpr ⟨p, hpmem⟩
            omega

theorem probeAux_nil (pm : Bool) (fuel : Nat) (b : GameBoard) :
    probeAux pm fuel b [] = (b, []) := by
  cases fuel <;> rfl

theorem probeAux_fuel_ext (pm : Bool) : ∀ (fuel : Nat) (b : GameBoard) (q : List Coord),
    (probeAux pm fuel b q).2 = [] →
    ∀ extra, probeAux pm (fuel + extra) b q = probeAux pm fuel b q := by
  intro fuel
  induction fuel with
  | zero =>
      intro b q hdrain extra
      cases q with
      | nil => rw [probeAux_nil, probeAux_nil]
      | cons p rest => simp [probeAux] at hdrain
  | succ fuel ih =>
      intro b q hdrain extra
      cases q with
      | nil => rw [probeAux_nil, probeAux_nil]
      | cons p rest =>
          have harith : fuel + 1 + extra = (fuel + extra) + 1 := by omega
          rw [harith, probeAux, probeAux]
          rw [probeAux] at hdrain
          exact ih (probeStep b p pm).1 (rest ++ (probeStep b p pm).2) hdrain extra

theorem probeMeasure_le_fuel (b : GameBoard) (c : Coord) :
    probeMeasure b.size b.board [c] ≤ probeFuel b := by
  rw [probeMeasure, probeFuel]
  have h1 : (uzeroFinset b.size b.board).card ≤ (allCoords b.size).length := by
    rw [uzeroFinset]
    exact le_trans (Finset.card_filter_le _ _) (List.toFinset_card_le _)
  simp only [List.length_cons, List.length_nil]
  omega

/-- C9: for every board and in-bounds start coordinate the flood-fill queue
drains — the run with fuel `probeFuel b = 1 + 730 * (total cell count)`
(total cells times the 729-neighbor fan-out plus the dequeued cell itself)
leaves an empty queue, and giving the loop any additional fuel changes
nothing, so the loop terminates within that bound.  The measure is
`queue length + 730 * (number of in-bounds undiscovered zero-count cells)`:
each dequeue enqueues at most its ≤ 729 neighbor occurrences and only when
it permanently discovers an undiscovered zero-count cell. -/
theorem claim9_termination (b : GameBoard) (c : Coord) (pm : Bool)
    (hc : inBounds b.size c) :
    (probeRun b c pm).2 = [] ∧
    ∀ extra, probeAux pm (probeFuel b + extra) b [c] = probeRun b c pm := by
  have hd : (probeAux pm (probeFuel b) b [c]).2 = [] :=
    probeAux_drain pm (probeFuel b) b [c]
      (fun x hx => by rw [List.mem_singleton] at hx; rw [hx]; exact hc)
      (probeMeasure_le_fuel b c)
  exact ⟨hd, fun extra => probeAux_fuel_ext pm (probeFuel b) b [c] hd extra⟩

theorem claim9_witness :
    inBounds exStaticBoard.size exC1 ∧
    ((probeRun exStaticBoard exC1 false).2 = [] ∧
     ∀ extra, probeAux false (probeFuel exStaticBoard + extra) exStaticBoard [exC1]
        = probeRun exStaticBoard exC1 false) :=
  ⟨by decide, claim9_termination exStaticBoard exC1 false (by decide)⟩

theorem probeStep_measure_lt (b : GameBoard) (p : Coord) (pm : Bool)
    (hp : inBounds b.size p) (rest : List Coord) :
    probeMeasure b.size (probeStep b p pm).1.board (rest ++ (probeStep b p pm).2)
      < probeMeasure b.size b.board (p :: rest) := by
  rw [probeMeasure, probeMeasure, List.length_append, List.length_cons]
  have hcard : (uzeroFinset b.size (probeStep b p pm).1.board).card
      ≤ (uzeroFinset b.size b.board).card :=
    Finset.card_le_card (uzeroFinset_probeStep_subset b p pm hp)
  rcases probeStep_snd_cases b p pm with hsnd | ⟨hsnd, hzold, hznew⟩
  · rw [hsnd]
    simp only [List.length_nil]
    omega
  · have hlen : (probeStep b p pm).2.length ≤ 729 := by
      rw [hsnd]
      exact neighborList_length_le hp
    have hpmem : p ∈ uzeroFinset b.size b.board := by
      rw [mem_uzeroFinset]
      exact ⟨hp, hzold⟩
    have hsub : uzeroFinset b.size (probeStep b p pm).1.board
        ⊆ (uzeroFinset b.size b.board).erase p := by
      intro e he
      rw [Finset.mem_erase]
      refine ⟨?_, uzeroFinset_probeStep_subset b p pm hp he⟩
      intro hep
      subst hep
      rw [mem_uzeroFinset] at he
      rw [he.2] at hznew
      exact absurd hznew (by decide)
    have hcard2 : (uzeroFinset b.size (probeStep b p pm).1.board).card
        ≤ (uzeroFinset b.size b.board).card - 1 := by
      have hs := Finset.card_le_card hsub
      rwa [Finset.card_erase_of_mem hpmem] at hs
    have hpos : 0 < (uzeroFinset b.size b.board).card :=
      Finset.card_pos.mpr ⟨p, hpmem⟩
    omega

theorem probe_at_board (b : GameBoard) (c : Coord) (pm : Bool) :
    (probe_at b c pm).board = (probeRun b c pm).1.board := by
  rw [probe_at_eq_ite]
  split_ifs <;> rfl

theorem isUZero_exists (v : CellState) (h : isUZeroCell v = true) :
    ∃ dd g, v = CellState.UndiscoveredEmpty 0 dd g := by
  cases v with
  | UndiscoveredEmpty cc dd g =>
      cases cc with
      | zero => exact ⟨dd, g, rfl⟩
      | succ cc => cases h
  | UndiscoveredMine g => cases h
  | MarkedMine g => cases h
  | ExplodedMine g => cases h
  | MarkedEmpty cc dd g => cases h
  | DiscoveredEmpty cc dd g => cases h

theorem UFlood_no_mine (b : GameBoard) (hmc : MineCountOK b) (c : Coord)
    (hc : inBounds b.size c) (hc0 : isUZeroCell (b.board c) = true) :
    ∀ p, UFlood b.size b.wrap b.board c p →
      isMineCell (b.board p) = false ∧ inBounds b.size p := by
  intro p hp
  induction hp with
  | start =>
      obtain ⟨dd, g, hv⟩ := isUZero_exists _ hc0
      exact ⟨by rw [hv]; rfl, hc⟩
  | step p n hp hz hn ih =>
      have hnin : inBounds b.size n := (mem_neighborList ih.2 hn).1
      obtain ⟨dd, g, hv⟩ := isUZero_exists _ hz
      have hcc : ccOf (b.board p) = some 0 := by rw [hv]; rfl
      have h0 := hmc p ih.2 0 hcc
      have hcount : mineNbrCount b.size b.wrap b.board p = 0 := h0.symm
      rw [mineNbrCount] at hcount
      refine ⟨?_, hnin⟩
      have hcp := List.countP_eq_zero.mp hcount n hn
      simpa using hcp

theorem flood_complete (d : Dims) (wr : Wraps) (f0 : Coord → CellState) (c : Coord)
    (hc0 : isUZeroCell (f0 c) = true) (D : Coord → Prop)
    (hclose : ∀ p, D p → isUZeroCell (f0 p) = true → ∀ n ∈ neighborList d wr p,
      D n ∨ ¬∃ cc dd g, f0 n = CellState.UndiscoveredEmpty cc dd g)
    (hstart : D c) :
    ∀ e, UFlood d wr f0 c e →
      (∃ cc dd g, f0 e = CellState.UndiscoveredEmpty cc dd g) → D e := by
  intro e hR
  induction hR with
  | start => exact fun _ => hstart
  | step p n hp hz hn ih =>
      intro hU
      obtain ⟨dd, g, hv⟩ := isUZero_exists _ hz
      have hDp : D p := ih ⟨0, dd, g, hv⟩
      rcases hclose p hDp hz n hn with h | h
      · exact h
      · exact absurd hU h

theorem probeAux_flood (d : Dims) (wr : Wraps) (f0 : Coord → CellState) (c : Coord)
    (hnm : ∀ p, UFlood d wr f0 c p → isMineCell (f0 p) = false)
    (hc0 : isUZeroCell (f0 c) = true) :
    ∀ (fuel : Nat) (b : GameBoard) (q : List Coord) (D : Coord → Prop),
    b.size = d → b.wrap = wr →
    probeMeasure d b.board q ≤ fuel →
    (∀ e, D e → b.board e = discoverCell (f0 e)) →
    (∀ e, ¬ D e → b.board e = f0 e) →
    (∀ e, D e → UFlood d wr f0 c e ∧
      ∃ cc dd g, f0 e = CellState.UndiscoveredEmpty cc dd g) →
    (∀ x ∈ q, inBounds d x ∧ UFlood d wr f0 c x) →
    (∀ p, D p → isUZeroCell (f0 p) = true → ∀ n ∈ neighborList d wr p,
      D n ∨ n ∈ q ∨ ¬∃ cc dd g, f0 n = CellState.UndiscoveredEmpty cc dd g) →
    (D c ∨ c ∈ q) →
    ∃ E : Coord → Prop,
      (∀ e, E e → (probeAux false fuel b q).1.board e = discoverCell (f0 e)) ∧
      (∀ e, ¬ E e → (probeAux false fuel b q).1.board e = f0 e) ∧
      (∀ e, E e → UFlood d wr f0 c e ∧
        ∃ cc dd g, f0 e = CellState.UndiscoveredEmpty cc dd g) ∧
      (∀ p, E p → isUZeroCell (f0 p) = true → ∀ n ∈ neighborList d wr p,
        E n ∨ ¬∃ cc dd g, f0 n = CellState.UndiscoveredEmpty cc dd g) ∧
      E c := by
  intro fuel
  induction fuel with
  | zero =>
      intro b q D hsz hwr hmeas hDy hDn hDsub hq hclose hstart
      rw [probeMeasure] at hmeas
      have hlen : q.length = 0 := by omega
      rw [List.length_eq_zero] at hlen
      subst hlen
      refine ⟨D, hDy, hDn, hDsub, ?_, ?_⟩
      · intro p hp hz n hn
        rcases hclose p hp hz n hn with h | h | h
        · exact Or.inl h
        · cases h
        · exact Or.inr h
      · rcases hstart with h | h
        · exact h
        · cases h
  | succ fuel ih =>
      intro b q D hsz hwr hmeas hDy hDn hDsub hq hclose hstart
      cases q with
      | nil =>
          refine ⟨D, hDy, hDn, hDsub, ?_, ?_⟩
          · intro p hp hz n hn
            rcases hclose p hp hz n hn with h | h | h
            · exact Or.inl h
            · cases h
            · exact Or.inr h
          · rcases hstart with h | h
            · exact h
            · cases h
      | cons p rest =>
          rw [probeAux]
          obtain ⟨hpin, hpR⟩ := hq p (List.mem_cons_self p rest)
          have hpinb : inBounds b.size p := by rw [hsz]; exact hpin
          have hmeas' : probeMeasure d (probeStep b p false).1.board
              (rest ++ (probeStep b p false).2) ≤ fuel := by
            have hlt := probeStep_measure_lt b p false hpinb rest
            rw [hsz] at hlt
            omega
          have hqrest : ∀ x ∈ rest, inBounds d x ∧ UFlood d wr f0 c x :=
            fun x hx => hq x (List.mem_cons_of_mem p hx)
          by_cases hDp : D p
          · obtain ⟨hpF, cc, dd, g, hpf⟩ := hDsub p hDp
            have hbp : b.board p = CellState.DiscoveredEmpty cc dd g := by
              rw [hDy p hDp, hpf]
              rfl
            have hstep : probeStep b p false = (b, []) := by
              rw [probeStep, hbp]
            refine ih (probeStep b p false).1 (rest ++ (probeStep b p false).2) D
              (by rw [probeStep_size]; exact hsz) (by rw [probeStep_wrap]; exact hwr)
              hmeas' ?_ ?_ hDsub ?_ ?_ ?_
            · rw [hstep]
              exact hDy
            · rw [hstep]
              exact hDn
            · intro x hx
              rcases List.mem_append.mp hx with hx | hx
              · exact hqrest x hx
              · rw [hstep] at hx
                cases hx
            · intro p' hp' hz' n hn
              rcases hclose p' hp' hz' n hn with h | h | h
              · exact Or.inl h
              · rcases List.mem_cons.mp h with h | h
                · subst h
                  exact Or.inl hDp
                · exact Or.inr (Or.inl (List.mem_append_left _ h))
              · exact Or.inr (Or.inr h)
            · rcases hstart with h | h
              · exact Or.inl h
              · rcases List.mem_cons.mp h with h | h
                · subst h
                  exact Or.inl hDp
                · exact Or.inr (List.mem_append_left _ h)
          · have hbp : b.board p = f0 p := hDn p hDp
            cases hpf : f0 p with
            | UndiscoveredMine g =>
                have hmine := hnm p hpR
                rw [hpf] at hmine
                cases hmine
            | ExplodedMine g =>
                have hmine := hnm p hpR
                rw [hpf] at hmine
                cases hmine
            | MarkedMine g =>
                have hstep : probeStep b p false = (b, []) := by
                  rw [probeStep, hbp, hpf]
                  rfl
                refine ih (probeStep b p false).1 (rest ++ (probeStep b p false).2) D
                  (by rw [probeStep_size]; exact hsz) (by rw [probeStep_wrap]; exact hwr)
                  hmeas' ?_ ?_ hDsub ?_ ?_ ?_
                · rw [hstep]
                  exact hDy
                · rw [hstep]
                  exact hDn
                · intro x hx
                  rcases List.mem_append.mp hx with hx | hx
                  · exact hqrest x hx
                  · rw [hstep] at hx
                    cases hx
                · intro p' hp' hz' n hn
                  rcases hclose p' hp' hz' n hn with h | h | h
                  · exact Or.inl h
                  · rcases List.mem_cons.mp h with h | h
                    · subst h
                      refine Or.inr (Or.inr ?_)
                      rintro ⟨cc', dd', g', hUE⟩
                      rw [hpf] at hUE
                      cases hUE
                    · exact Or.inr (Or.inl (List.mem_append_left _ h))
                  · exact Or.inr (Or.inr h)
                · rcases hstart with h | h
                  · exact Or.inl h
                  · rcases List.mem_cons.mp h with h | h
                    · have hcz : isUZeroCell (f0 p) = true := by
                        rw [← h]
                        exact hc0
                      rw [hpf] at hcz
                      cases hcz
                    · exact Or.inr (List.mem_append_left _ h)
            | MarkedEmpty cc dd g =>
                have hstep : probeStep b p false = (b, []) := by
                  rw [probeStep, hbp, hpf]
                  rfl
                refine ih (probeStep b p false).1 (rest ++ (probeStep b p false).2) D
                  (by rw [probeStep_size]; exact hsz) (by rw [probeStep_wrap]; exact hwr)
                  hmeas' ?_ ?_ hDsub ?_ ?_ ?_
                · rw [hstep]
                  exact hDy
                · rw [hstep]
                  exact hDn
                · intro x hx
                  rcases List.mem_append.mp hx with hx | hx
                  · exact hqrest x hx
                  · rw [hstep] at hx
                    cases hx
                · intro p' hp' hz' n hn
                  rcases hclose p' hp' hz' n hn with h | h | h
                  · exact Or.inl h
                  · rcases List.mem_cons.mp h with h | h
                    · subst h
                      refine Or.inr (Or.inr ?_)
                      rintro ⟨cc', dd', g', hUE⟩
                      rw [hpf] at hUE
                      cases hUE
                    · exact Or.inr (Or.inl (List.mem_append_left _ h))
                  · exact Or.inr (Or.inr h)
                · rcases hstart with h | h
                  · exact Or.inl h
                  · rcases List.mem_cons.mp h with h | h
                    · have hcz : isUZeroCell (f0 p) = true := by
                        rw [← h]
                        exact hc0
                      rw [hpf] at hcz
                      cases hcz
                    · exact Or.inr (List.mem_append_left _ h)
            | DiscoveredEmpty cc dd g =>
                have hstep : probeStep b p false = (b, []) := by
                  rw [probeStep, hbp, hpf]
                refine ih (probeStep b p false).1 (rest ++ (probeStep b p false).2) D
                  (by rw [probeStep_size]; exact hsz) (by rw [probeStep_wrap]; exact hwr)
                  hmeas' ?_ ?_ hDsub ?_ ?_ ?_
                · rw [hstep]
                  exact hDy
                · rw [hstep]
                  exact hDn
                · intro x hx
                  rcases List.mem_append.mp hx with hx | hx
                  · exact hqrest x hx
                  · rw [hstep] at hx
                    cases hx
                · intro p' hp' hz' n hn
                  rcases hclose p' hp' hz' n hn with h | h | h
                  · exact Or.inl h
                  · rcases List.mem_cons.mp h with h | h
                    · subst h
                      refine Or.inr (Or.inr ?_)
                      rintro ⟨cc', dd', g', hUE⟩
                      rw [hpf] at hUE
                      cases hUE
                    · exact Or.inr (Or.inl (List.mem_append_left _ h))
                  · exact Or.inr (Or.inr h)
                · rcases hstart with h | h
                  · exact Or.inl h
                  · rcases List.mem_cons.mp h with h | h
                    · have hcz : isUZeroCell (f0 p) = true := by
                        rw [← h]
                        exact hc0
                      rw [hpf] at hcz
                      cases hcz
                    · exact Or.inr (List.mem_append_left _ h)
            | UndiscoveredEmpty cc dd g =>
                have hstep1 : (probeStep b p false).1 =
                    { b with
                      board := updCell b.board p (CellState.DiscoveredEmpty cc dd g),
                      undiscoved_empty_fields := dec64 b.undiscoved_empty_fields } := by
                  rw [probeStep, hbp, hpf]
                have hstep2 : (probeStep b p false).2 =
                    if cc = 0 then neighborList b.size b.wrap p else [] := by
                  rw [probeStep, hbp, hpf]
                refine ih (probeStep b p false).1 (rest ++ (probeStep b p false).2)
                  (fun e => D e ∨ e = p)
                  (by rw [probeStep_size]; exact hsz) (by rw [probeStep_wrap]; exact hwr)
                  hmeas' ?_ ?_ ?_ ?_ ?_ ?_
                · intro e he
                  rw [hstep1]
                  dsimp only
                  by_cases hep : e = p
                  · subst hep
                    rw [updCell_self, hpf]
                    rfl
                  · rw [updCell_other _ _ _ hep]
                    rcases he with he | he
                    · exact hDy e he
                    · exact absurd he hep
                · intro e he
                  have hne : ¬ D e ∧ e ≠ p := by
                    constructor
                    · intro hD
                      exact he (Or.inl hD)
                    · intro hep
                      exact he (Or.inr hep)
                  rw [hstep1]
                  dsimp only
                  rw [updCell_other _ _ _ hne.2]
                  exact hDn e hne.1
                · intro e he
                  rcases he with he | he
                  · exact hDsub e he
                  · subst he
                    exact ⟨hpR, cc, dd, g, hpf⟩
                · intro x hx
                  rcases List.mem_append.mp hx with hx | hx
                  · exact hqrest x hx
                  · rw [hstep2] at hx
                    by_cases h0 : cc = 0
                    · rw [if_pos h0, hsz, hwr] at hx
                      refine ⟨(mem_neighborList hpin hx).1, ?_⟩
                      exact UFlood.step p x hpR (by rw [hpf, h0]; rfl) hx
                    · rw [if_neg h0] at hx
                      cases hx
                · intro p' hp' hz' n hn
                  rcases hp' with hp' | hp'
                  · rcases hclose p' hp' hz' n hn with h | h | h
                    · exact Or.inl (Or.inl h)
                    · rcases List.mem_cons.mp h with h | h
                      · exact Or.inl (Or.inr h)
                      · exact Or.inr (Or.inl (List.mem_append_left _ h))
                    · exact Or.inr (Or.inr h)
                  · subst hp'
                    rw [hpf] at hz'
                    have h0 : cc = 0 := by
                      cases cc with
                      | zero => rfl
                      | succ cc => cases hz'
                    refine Or.inr (Or.inl (List.mem_append_right _ ?_))
                    rw [hstep2, if_pos h0, hsz, hwr]
                    exact hn
                · rcases hstart with h | h
                  · exact Or.inl (Or.inl h)
                  · rcases List.mem_cons.mp h with h | h
                    · exact Or.inl (Or.inr h)
                    · exact Or.inr (List.mem_append_left _ h)

/-- C3 (amended): probing (without allow_probing_marked) an in-bounds cell
that is UndiscoveredEmpty with mine count 0 turns into DiscoveredEmpty
exactly those cells that are flood-reachable from it through
undiscovered-zero cells (the zero region it can actually traverse plus the
bordering layer those zero cells enqueue) AND are currently
UndiscoveredEmpty, and changes no other cell.  The claim's "connected
zero-mine-count region plus its bordering layer" is amended: marked cells
block the flood — a MarkedEmpty zero cell is not traversed and a MarkedEmpty
border cell is not revealed (see the counterexample). -/
theorem claim3_flood_region (b : GameBoard) (hb : Reachable b) (c : Coord)
    (hc : inBounds b.size c) (hc0 : isUZeroCell (b.board c) = true) :
    (∀ e, UFlood b.size b.wrap b.board c e →
      (∃ cc dd g, b.board e = CellState.UndiscoveredEmpty cc dd g) →
      (probe_at b c false).board e = discoverCell (b.board e)) ∧
    (∀ e, ¬(UFlood b.size b.wrap b.board c e ∧
        ∃ cc dd g, b.board e = CellState.UndiscoveredEmpty cc dd g) →
      (probe_at b c false).board e = b.board e) := by
  have hmc := Reachable_MineCountOK b hb
  obtain ⟨E, h1, h2, h3, h4, h5⟩ :=
    probeAux_flood b.size b.wrap b.board c
      (fun p hp => (UFlood_no_mine b hmc c hc hc0 p hp).1) hc0
      (probeFuel b) b [c] (fun _ => False) rfl rfl
      (probeMeasure_le_fuel b c)
      (fun e he => he.elim)
      (fun e _ => rfl)
      (fun e he => he.elim)
      (fun x hx => by
        rw [List.mem_singleton] at hx
        subst hx
        exact ⟨hc, UFlood.start⟩)
      (fun p hp => hp.elim)
      (Or.inr (List.mem_singleton_self c))
  constructor
  · intro e hR hU
    rw [probe_at_board]
    exact h1 e (flood_complete b.size b.wrap b.board c hc0 E h4 h5 e hR hU)
  · intro e hne
    rw [probe_at_board]
    refine h2 e ?_
    intro hEe
    exact hne ⟨(h3 e hEe).1, (h3 e hEe).2⟩

theorem claim3_witness :
    (Reachable (GameBoard.new ⟨2, 1, 1, 1, 1, 1⟩ noWraps 0 none (some 0) dumbZero) ∧
     inBounds (GameBoard.new ⟨2, 1, 1, 1, 1, 1⟩ noWraps 0 none (some 0) dumbZero).size exC0 ∧
     isUZeroCell ((GameBoard.new ⟨2, 1, 1, 1, 1, 1⟩ noWraps 0 none
       (some 0) dumbZero).board exC0) = true) ∧
    ((∀ e, UFlood (GameBoard.new ⟨2, 1, 1, 1, 1, 1⟩ noWraps 0 none (some 0) dumbZero).size
        (GameBoard.new ⟨2, 1, 1, 1, 1, 1⟩ noWraps 0 none (some 0) dumbZero).wrap
        (GameBoard.new ⟨2, 1, 1, 1, 1, 1⟩ noWraps 0 none (some 0) dumbZero).board exC0 e →
      (∃ cc dd g, (GameBoard.new ⟨2, 1, 1, 1, 1, 1⟩ noWraps 0 none (some 0) dumbZero).board e
        = CellState.UndiscoveredEmpty cc dd g) →
      (probe_at (GameBoard.new ⟨2, 1, 1, 1, 1, 1⟩ noWraps 0 none (some 0) dumbZero)
        exC0 false).board e
        = discoverCell ((GameBoard.new ⟨2, 1, 1, 1, 1, 1⟩ noWraps 0 none
          (some 0) dumbZero).board e)) ∧
     (∀ e, ¬(UFlood (GameBoard.new ⟨2, 1, 1, 1, 1, 1⟩ noWraps 0 none (some 0) dumbZero).size
        (GameBoard.new ⟨2, 1, 1, 1, 1, 1⟩ noWraps 0 none (some 0) dumbZero).wrap
        (GameBoard.new ⟨2, 1, 1, 1, 1, 1⟩ noWraps 0 none (some 0) dumbZero).board exC0 e ∧
        ∃ cc dd g, (GameBoard.new ⟨2, 1, 1, 1, 1, 1⟩ noWraps 0 none (some 0) dumbZero).board e
          = CellState.UndiscoveredEmpty cc dd g) →
      (probe_at (GameBoard.new ⟨2, 1, 1, 1, 1, 1⟩ noWraps 0 none (some 0) dumbZero)
        exC0 false).board e
        = (GameBoard.new ⟨2, 1, 1, 1, 1, 1⟩ noWraps 0 none (some 0) dumbZero).board e)) :=
  ⟨⟨Reachable.base ⟨2, 1, 1, 1, 1, 1⟩ noWraps 0 none (some 0) dumbZero (fun c h => nomatch h),
    by decide, by decide⟩,
   claim3_flood_region _ (Reachable.base ⟨2, 1, 1, 1, 1, 1⟩ noWraps 0 none (some 0) dumbZero
     (fun c h => nomatch h)) exC0 (by decide) (by decide)⟩

/-- C3 (counterexample): on the 3-cell strip with one mine at index 2,
cell 0 has mine count 0 and cell 1 (mine count 1) is its bordering layer.
After cell 1 is marked, probing cell 0 leaves cell 1 as `MarkedEmpty`:
a cell of the claimed "one bordering layer of non-zero-count cells" is not
turned into Discovered Empty. -/
theorem claim3_counterexample :
    Reachable (mark_at (GameBoard.new ⟨3, 1, 1, 1, 1, 1⟩ noWraps 1 none (some 2) dumbZero)
      exC1) ∧
    inBounds (mark_at (GameBoard.new ⟨3, 1, 1, 1, 1, 1⟩ noWraps 1 none (some 2) dumbZero)
      exC1).size exC0 ∧
    ccOf ((mark_at (GameBoard.new ⟨3, 1, 1, 1, 1, 1⟩ noWraps 1 none (some 2) dumbZero)
      exC1).board exC0) = some 0 ∧
    specZeroBorder
      (mark_at (GameBoard.new ⟨3, 1, 1, 1, 1, 1⟩ noWraps 1 none (some 2) dumbZero) exC1).size
      (mark_at (GameBoard.new ⟨3, 1, 1, 1, 1, 1⟩ noWraps 1 none (some 2) dumbZero) exC1).wrap
      (mark_at (GameBoard.new ⟨3, 1, 1, 1, 1, 1⟩ noWraps 1 none (some 2) dumbZero) exC1).board
      exC0 exC1 ∧
    (probe_at (mark_at (GameBoard.new ⟨3, 1, 1, 1, 1, 1⟩ noWraps 1 none (some 2) dumbZero)
      exC1) exC0 false).board exC1 = CellState.MarkedEmpty 1 1 0 ∧
    (∀ cc dd g, CellState.MarkedEmpty 1 1 0 ≠ CellState.DiscoveredEmpty cc dd g) :=
  ⟨Reachable.mark _ _ (Reachable.base ⟨3, 1, 1, 1, 1, 1⟩ noWraps 1 none (some 2) dumbZero
      (fun c h => nomatch h)) (by decide),
   by decide, by decide,
   ⟨⟨exC0, specZeroRegion.start, by decide, by decide⟩, by decide⟩,
   by decide,
   fun cc dd g h => nomatch h⟩
